import Mathlib

/-!
# GeneralizationTool: binary-heap priority queue and delay queue

A shallow embedding of `internal/queue/priority_queue.go` and
`queue/delay_queue.go`.

* A Go slice is a `List`; slot `0` of `data` is the reserved, unused slot.
* An index expression `data[i]` that is out of range is a run-time panic
  in Go; here it is the fault `Fault.indexOutOfRange`.
* The two `for` loops are recursive functions over a step budget; running
  out of budget is the fault `Fault.fuelExhausted` (shown below never to
  happen for the budget the callers pass).
* A Go method with a pointer receiver returns its results together with
  the receiver after the call.
-/

set_option autoImplicit false

namespace GeneralizationTool

/-- The two sentinel errors of the package (`nil` is `none : Option Error`). -/
inductive Error where
  | ErrOutOfCapacity
  | ErrEmptyQueue
  deriving DecidableEq, Repr

/-- Abnormal ends of a call: a Go run-time panic, or the step budget of the
embedding running out. -/
inductive Fault where
  | indexOutOfRange
  | fuelExhausted
  | unlockOfUnlockedMutex
  | closeOfClosedChannel
  | makesliceOutOfRange
  deriving DecidableEq, Repr

/-- Comparator of the root package: negative, zero or positive. -/
abbrev Comparator (T : Type) := T → T → Int

/-- The struct `PriorityQueue[T]`. -/
structure PriorityQueue (T : Type) where
  capacity : Int
  data : List T
  compare : Comparator T

variable {T : Type}

/-- Index expression `data[i]`. -/
def idx (data : List T) (i : Nat) : Except Fault T :=
  match data[i]? with
  | some x => .ok x
  | none => .error .indexOutOfRange

/-- Tuple assignment `data[i], data[j] = data[j], data[i]`. -/
def swapAt (data : List T) (i j : Nat) : Except Fault (List T) :=
  match idx data j, idx data i with
  | .ok b, .ok a => .ok ((data.set i b).set j a)
  | _, _ => .error .indexOutOfRange

/-- The heap that function `NewPriorityQueue` returns once the allocation
`make([]T, 1, sliceCap)` of line 32 has succeeded: a slice of length one
holding the zero value. The backing capacity `sliceCap` is read by no
operation. The call with its allocation is `NewPriorityQueue.run`. -/
def NewPriorityQueue [Inhabited T] (capacity : Int) (compare : Comparator T) :
    PriorityQueue T :=
  let capacity := if capacity < 1 then 0 else capacity
  { capacity := capacity, data := [default], compare := compare }

/-- Modelled from the spec: `slice.Shrink` of `internal/slice` is not among
the sources. Per the spec it only releases backing storage of an unbounded
heap whose usage has dropped well below the allocated capacity; the stored
elements and their order are kept. -/
def slice.Shrink (data : List T) : List T := data

namespace PriorityQueue

/-- Method `Len`. -/
def Len (p : PriorityQueue T) : Int := (p.data.length : Int) - 1

/-- Method `Cap`. -/
def Cap (p : PriorityQueue T) : Int := p.capacity

/-- Method `IsBoundless`. -/
def IsBoundless (p : PriorityQueue T) : Bool := decide (p.capacity ≤ 0)

/-- Method `isFull`. -/
def isFull (p : PriorityQueue T) : Bool :=
  decide (p.capacity > 0) && decide ((p.data.length : Int) - 1 = p.capacity)

/-- Method `isEmpty`: the source tests the capacity field. -/
def isEmpty (p : PriorityQueue T) : Bool := decide (p.capacity < 2)

/-- Method `Peek`. -/
def Peek [Inhabited T] (p : PriorityQueue T) :
    Except Fault ((T × Option Error) × PriorityQueue T) :=
  if p.isEmpty then .ok ((default, some .ErrEmptyQueue), p)
  else
    match idx p.data 1 with
    | .ok x => .ok ((x, none), p)
    | .error f => .error f

/-- The `for` loop of `Enqueue` (sift-up); each evaluation of the loop
condition takes one unit of budget. -/
def siftUp (compare : Comparator T) : Nat → List T → Nat → Nat → Except Fault (List T)
  | 0, _, _, _ => .error .fuelExhausted
  | fuel + 1, data, node, parent =>
    if parent > 0 then
      match idx data node, idx data parent with
      | .ok a, .ok b =>
        if compare a b < 0 then
          match swapAt data node parent with
          | .ok data => siftUp compare fuel data parent (parent / 2)
          | .error f => .error f
        else .ok data
      | _, _ => .error .indexOutOfRange
    else .ok data

/-- Method `Enqueue`: `parent` is halved on every iteration, so the loop
condition is evaluated at most `len(p.data)` times. -/
def Enqueue (p : PriorityQueue T) (t : T) :
    Except Fault (Option Error × PriorityQueue T) :=
  if p.isFull then .ok (some .ErrOutOfCapacity, p)
  else
    let data := p.data ++ [t]
    let node := data.length - 1
    let parent := (data.length - 1) / 2
    match siftUp p.compare data.length data node parent with
    | .ok data => .ok (none, { p with data := data })
    | .error f => .error f

/-- Method `shrinkIfNec`. -/
def shrinkIfNec (p : PriorityQueue T) : PriorityQueue T :=
  if p.IsBoundless then { p with data := slice.Shrink p.data } else p

/-- The `for` loop of `heapify` (sift-down), one iteration per unit of
budget. `minPos` equals `i` whenever the loop body is entered: it is
initialised to `i` and the body ends with `i = minPos`. -/
def heapifyLoop (compare : Comparator T) : Nat → List T → Nat → Nat → Except Fault (List T)
  | 0, _, _, _ => .error .fuelExhausted
  | fuel + 1, data, n, i =>
    let minPos := i
    let left := i * 2
    let afterLeft : Except Fault Nat :=
      if left ≤ n then
        match idx data left, idx data minPos with
        | .ok a, .ok b => .ok (if compare a b < 0 then left else minPos)
        | _, _ => .error .indexOutOfRange
      else .ok minPos
    match afterLeft with
    | .error f => .error f
    | .ok minPos =>
      let right := i * 2 + 1
      let afterRight : Except Fault Nat :=
        if right ≤ n then
          match idx data right, idx data minPos with
          | .ok a, .ok b => .ok (if compare a b < 0 then right else minPos)
          | _, _ => .error .indexOutOfRange
        else .ok minPos
      match afterRight with
      | .error f => .error f
      | .ok minPos =>
        if minPos = i then .ok data
        else
          match swapAt data i minPos with
          | .ok data => heapifyLoop compare fuel data n minPos
          | .error f => .error f

/-- Method `heapify`: the loop visits strictly increasing positions up to
`n`, so `n + 1` iterations are enough from any `i ≥ 1`. -/
def heapify (p : PriorityQueue T) (data : List T) (n i : Nat) : Except Fault (List T) :=
  heapifyLoop p.compare (n + 1) data n i

/-- Method `Dequeue`. -/
def Dequeue [Inhabited T] (p : PriorityQueue T) :
    Except Fault ((T × Option Error) × PriorityQueue T) :=
  if p.isEmpty then .ok ((default, some .ErrEmptyQueue), p)
  else
    match idx p.data 1, idx p.data (p.data.length - 1) with
    | .ok pop, .ok last =>
      let p := { p with data := p.data.set 1 last }
      let p := { p with data := p.data.take (p.data.length - 1) }
      let p := p.shrinkIfNec
      match p.heapify p.data (p.data.length - 1) 1 with
      | .ok data => .ok ((pop, none), { p with data := data })
      | .error f => .error f
    | _, _ => .error .indexOutOfRange

/-- The stored items: everything after the reserved slot `0`. -/
def items (p : PriorityQueue T) : List T := p.data.tail

/-- Calls `Enqueue` on the given items in order; collects the returned
errors and the final receiver. -/
def enqueueAll (p : PriorityQueue T) : List T →
    Except Fault (List (Option Error) × PriorityQueue T)
  | [] => .ok ([], p)
  | t :: ts =>
    match p.Enqueue t with
    | .error f => .error f
    | .ok (e, p) =>
      match enqueueAll p ts with
      | .error f => .error f
      | .ok (es, p) => .ok (e :: es, p)

/-- Calls `Dequeue` the given number of times; collects the returned pairs
and the final receiver. -/
def dequeueN [Inhabited T] (p : PriorityQueue T) : Nat →
    Except Fault (List (T × Option Error) × PriorityQueue T)
  | 0 => .ok ([], p)
  | k + 1 =>
    match p.Dequeue with
    | .error f => .error f
    | .ok (r, p) =>
      match dequeueN p k with
      | .error f => .error f
      | .ok (rs, p) => .ok (r :: rs, p)

end PriorityQueue

/-- A three-way comparator that is a total preorder: it is consistent
(swapping the arguments flips the sign of the result, so any two items are
comparable and `compare a a = 0`), and `≤` (a non-positive result) is
transitive. -/
structure TotalPreorder (compare : Comparator T) : Prop where
  flip : ∀ a b, compare a b < 0 ↔ 0 < compare b a
  trans : ∀ a b c, compare a b ≤ 0 → compare b c ≤ 0 → compare a c ≤ 0

/-- The min-heap property of the 1-indexed array: every node from index 2 on
is not smaller than its parent. -/
def HeapInv (compare : Comparator T) (data : List T) : Prop :=
  ∀ k a b, 2 ≤ k → data[k / 2]? = some a → data[k]? = some b → compare a b ≤ 0

/-- Heap states reachable from `NewPriorityQueue capacity compare` by calls
of `Enqueue` and `Dequeue` that return. -/
inductive Reachable [Inhabited T] (capacity : Int) (compare : Comparator T) :
    PriorityQueue T → Prop
  | init : Reachable capacity compare (NewPriorityQueue capacity compare)
  | enqueue {p p' : PriorityQueue T} {t : T} {e : Option Error} :
      Reachable capacity compare p → p.Enqueue t = .ok (e, p') →
      Reachable capacity compare p'
  | dequeue {p p' : PriorityQueue T} {r : T × Option Error} :
      Reachable capacity compare p → p.Dequeue = .ok (r, p') →
      Reachable capacity compare p'

/-- Comparator on integers: ascending. -/
def intCompare : Comparator Int := fun a b => a - b

/-- An item with a deadline, as in the capacity-2 scenario. -/
structure Job where
  name : Char
  deadline : Int
  deriving DecidableEq, Repr

instance : Inhabited Job := ⟨⟨' ', 0⟩⟩

/-- Comparator ascending by deadline. -/
def byDeadline : Comparator Job := fun a b => a.deadline - b.deadline

/-! ## The delay queue -/

/-- Identity of a channel made by `make(chan struct{})`. -/
abbrev Chan := Nat

/-- The channels of the program: which ones are closed, and the identity the
next `make(chan struct{})` yields. -/
structure Chans where
  closed : List Chan
  fresh : Chan
  deriving DecidableEq, Repr

/-- Value of `ctx.Err()` once the context is done. -/
inductive CtxErr where
  | Canceled
  | DeadlineExceeded
  deriving DecidableEq, Repr

/-- Errors a delay-queue call returns: `ctx.Err()`, an error of the inner heap
returned as it is, or an inner error wrapped by `fmt.Errorf`. -/
inductive CallError where
  | ctx (e : CtxErr)
  | heap (e : Error)
  | wrapped (e : Error)
  deriving DecidableEq, Repr

/-- Method `Unlock` of the mutex (`true`: held); unlocking a mutex that is not
held is a fatal run-time error. -/
def Unlock (l : Bool) : Except Fault Bool :=
  if l then .ok false else .error .unlockOfUnlockedMutex

/-- The struct `cond`; its locker `l` is passed to the methods. -/
structure cond where
  signal : Chan
  deriving DecidableEq, Repr

/-- Function `newCond`. -/
def newCond (h : Chans) : cond × Chans :=
  ({ signal := h.fresh }, { h with fresh := h.fresh + 1 })

/-- Method `broadcast`: results are the gate, the locker and the channels
after the call. Closing a closed channel is a run-time panic. -/
def cond.broadcast (c : cond) (l : Bool) (h : Chans) : Except Fault (cond × Bool × Chans) :=
  let signal := h.fresh
  let h := { h with fresh := h.fresh + 1 }
  let old := c.signal
  let c := { c with signal := signal }
  match Unlock l with
  | .error f => .error f
  | .ok l =>
    if old ∈ h.closed then .error .closeOfClosedChannel
    else .ok (c, l, { h with closed := old :: h.closed })

/-- Method `signalCh`: results are the handle, the locker after the call. -/
def cond.signalCh (c : cond) (l : Bool) : Except Fault (Chan × Bool) :=
  let res := c.signal
  match Unlock l with
  | .error f => .error f
  | .ok l => .ok (res, l)

/-- The struct `DelayQueue[T]` together with the channels of the program.
`mutex` is `true` while the lock is held. -/
structure DelayQueue (T : Type) where
  q : PriorityQueue T
  mutex : Bool
  dequeueSignal : cond
  enqueueSignal : cond
  chans : Chans

/-- Modelled from the spec: the constructor of `DelayQueue` is not among the
sources. Per the spec a queue is created from a capacity and a comparator and
holds one heap, one exclusive lock (free at first) and two gates coupled to
that lock. -/
def NewDelayQueue [Inhabited T] (capacity : Int) (compare : Comparator T) : DelayQueue T :=
  let h : Chans := { closed := [], fresh := 0 }
  let (dq, h) := newCond h
  let (eq, h) := newCond h
  { q := NewPriorityQueue capacity compare, mutex := false,
    dequeueSignal := dq, enqueueSignal := eq, chans := h }

/-- How one run of the loop body of `DelayQueue.Enqueue` ends. -/
inductive EnqueueOutcome where
  /-- The call returned this error (`none` is `nil`). -/
  | returned (err : Option CallError)
  /-- The call is suspended in `d.mutex.Lock()`. -/
  | blockedOnLock
  /-- The call is suspended in `select` on `ctx.Done()` and this handle. -/
  | waitSpace (signal : Chan)
  /-- The `select` was woken by the handle: the loop starts over. -/
  | retry
  /-- The call ended in a run-time panic. -/
  | crashed (f : Fault)
  deriving DecidableEq, Repr

/-- How one run of the loop body of `DelayQueue.Dequeue` ends. -/
inductive DequeueOutcome (T : Type) where
  /-- The call returned this value and error (`none` is `nil`). -/
  | returned (val : T) (err : Option CallError)
  /-- The call is suspended in `d.mutex.Lock()`. -/
  | blockedOnLock
  /-- Suspended in `select` on `ctx.Done()` and this handle (empty queue). -/
  | waitEnqueue (signal : Chan)
  /-- Suspended in `select` on `ctx.Done()`, the timer and this handle. -/
  | waitReady (signal : Chan)
  /-- The timer path ran `continue`, or the `select` was woken by the handle:
  the loop starts over. -/
  | retry
  /-- The call ended in a run-time panic. -/
  | crashed (f : Fault)
  deriving DecidableEq, Repr

namespace DelayQueue

/-- One run of the loop body of `DelayQueue.Enqueue`, from the first `select`
to the next suspension or return. `ctx` is `some e` when `ctx.Done()` is
closed at that `select`, with `e = ctx.Err()`. -/
def enqueueIter (d : DelayQueue T) (ctx : Option CtxErr) (t : T) :
    EnqueueOutcome × DelayQueue T :=
  match ctx with
  | some e => (.returned (some (.ctx e)), d)
  | none =>
    if d.mutex then (.blockedOnLock, d)
    else
      let d := { d with mutex := true }
      match d.q.Enqueue t with
      | .error f => (.crashed f, d)
      | .ok (err, q) =>
        let d := { d with q := q }
        match err with
        | none =>
          match d.enqueueSignal.broadcast d.mutex d.chans with
          | .error f => (.crashed f, d)
          | .ok (c, l, h) =>
            (.returned none, { d with enqueueSignal := c, mutex := l, chans := h })
        | some .ErrOutOfCapacity =>
          match d.dequeueSignal.signalCh d.mutex with
          | .error f => (.crashed f, d)
          | .ok (signal, l) => (.waitSpace signal, { d with mutex := l })
        | some e =>
          match Unlock d.mutex with
          | .error f => (.crashed f, d)
          | .ok l => (.returned (some (.wrapped e)), { d with mutex := l })

/-- The statements `val, err = d.q.Dequeue(); d.dequeueSignal.broadcast();
return val, err` (lines 65-67 and 89-91), run with the lock held. -/
def popAndReturn [Inhabited T] (d : DelayQueue T) : DequeueOutcome T × DelayQueue T :=
  match d.q.Dequeue with
  | .error f => (.crashed f, d)
  | .ok ((val, err), q) =>
    let d := { d with q := q }
    match d.dequeueSignal.broadcast d.mutex d.chans with
    | .error f => (.crashed f, d)
    | .ok (c, l, h) =>
      (.returned val (err.map .heap), { d with dequeueSignal := c, mutex := l, chans := h })

/-- One run of the loop body of `DelayQueue.Dequeue`, from the first `select`
to the next suspension or return. `Delay` is what `val.Delay()` yields at
that moment; `timer` is the local variable (`none` is `nil`, `some x` a timer
last armed with `x`). -/
def dequeueIter [Inhabited T] (d : DelayQueue T) (ctx : Option CtxErr) (Delay : T → Int)
    (timer : Option Int) : DequeueOutcome T × DelayQueue T × Option Int :=
  match ctx with
  | some e => (.returned default (some (.ctx e)), d, timer)
  | none =>
    if d.mutex then (.blockedOnLock, d, timer)
    else
      let d := { d with mutex := true }
      match d.q.Peek with
      | .error f => (.crashed f, d, timer)
      | .ok ((val, err), q) =>
        let d := { d with q := q }
        match err with
        | none =>
          let delay := Delay val
          if delay ≤ 0 then
            let (o, d) := d.popAndReturn
            (o, d, timer)
          else
            match d.dequeueSignal.signalCh d.mutex with
            | .error f => (.crashed f, d, timer)
            | .ok (signal, l) => (.waitReady signal, { d with mutex := l }, some delay)
        | some .ErrEmptyQueue =>
          match d.enqueueSignal.signalCh d.mutex with
          | .error f => (.crashed f, d, timer)
          | .ok (signal, l) => (.waitEnqueue signal, { d with mutex := l }, timer)
        | some e =>
          match Unlock d.mutex with
          | .error f => (.crashed f, d, timer)
          | .ok l => (.returned default (some (.wrapped e)), { d with mutex := l }, timer)

/-- The branch `case <-timer.C` of `DelayQueue.Dequeue` (lines 79-91), up to
its `return` or `continue`. `Delay` is what `val.Delay()` yields at that
moment. -/
def dequeueTimerFired [Inhabited T] (d : DelayQueue T) (Delay : T → Int) :
    DequeueOutcome T × DelayQueue T :=
  if d.mutex then (.blockedOnLock, d)
  else
    let d := { d with mutex := true }
    match d.q.Peek with
    | .error f => (.crashed f, d)
    | .ok ((val, err), q) =>
      let d := { d with q := q }
      if err ≠ none ∨ Delay val > 0 then
        match Unlock d.mutex with
        | .error f => (.crashed f, d)
        | .ok l => (.retry, { d with mutex := l })
      else d.popAndReturn

end DelayQueue

/-! ## Invariants used in the proofs -/

/-- Sift-up invariant: the heap property holds everywhere except possibly between
`node` and its parent, and the children of `node` are not smaller than its parent. -/
def UpInv (compare : Comparator T) (data : List T) (node : Nat) : Prop :=
  (∀ k a b, 2 ≤ k → k ≠ node → data[k / 2]? = some a → data[k]? = some b → compare a b ≤ 0) ∧
  (∀ k a b, 2 ≤ node → k / 2 = node → data[node / 2]? = some a → data[k]? = some b →
    compare a b ≤ 0)

/-- Sift-down invariant: the heap property holds everywhere except possibly between
`i` and its children, and the children of `i` are not smaller than its parent. -/
def DownInv (compare : Comparator T) (data : List T) (i : Nat) : Prop :=
  (∀ k a b, 2 ≤ k → k / 2 ≠ i → data[k / 2]? = some a → data[k]? = some b →
    compare a b ≤ 0) ∧
  (∀ k a b, 2 ≤ i → k / 2 = i → data[i / 2]? = some a → data[k]? = some b →
    compare a b ≤ 0)

/-- What every reachable heap satisfies. -/
structure Good [Inhabited T] (capacity : Int) (compare : Comparator T)
    (p : PriorityQueue T) : Prop where
  cmp : p.compare = compare
  cap : p.capacity = if capacity < 1 then 0 else capacity
  head : p.data[0]? = some default
  bound : 0 < p.capacity → (p.data.length : Int) - 1 ≤ p.capacity
  heap : TotalPreorder compare → HeapInv compare p.data

/-- Item A of the capacity-2 scenario: deadline 100. -/
def jobA : Job := ⟨'A', 100⟩

/-- Item B of the capacity-2 scenario: deadline 50. -/
def jobB : Job := ⟨'B', 50⟩

/-- Item C of the capacity-2 scenario: deadline 10. -/
def jobC : Job := ⟨'C', 10⟩

/-- A delay queue of capacity 2 holding B and A, with the lock free. -/
def readyQueue : DelayQueue Job :=
  { q := ⟨2, [default, jobB, jobA], byDeadline⟩, mutex := false,
    dequeueSignal := ⟨0⟩, enqueueSignal := ⟨1⟩, chans := ⟨[], 2⟩ }

/-- The queue `readyQueue` after B has been taken out. -/
def readyQueueAfter : DelayQueue Job :=
  { q := ⟨2, [default, jobA], byDeadline⟩, mutex := false,
    dequeueSignal := ⟨2⟩, enqueueSignal := ⟨1⟩, chans := ⟨[0], 3⟩ }

/-- Remaining delay of a job 60 time units after the deadlines were set. -/
def delayAt60 : Job → Int := fun j => j.deadline - 60

/-! ## Further definitions: sift-down choice, gates, backing array -/

/-- The two `if` statements of one iteration of `heapify` (lines 103-112):
the value of `minPos` when the test `minPos == i` is reached. -/
def PriorityQueue.heapifyChoice (compare : Comparator T) (data : List T) (n i : Nat) :
    Except Fault Nat :=
  let minPos := i
  let left := i * 2
  let afterLeft : Except Fault Nat :=
    if left ≤ n then
      match idx data left, idx data minPos with
      | .ok a, .ok b => .ok (if compare a b < 0 then left else minPos)
      | _, _ => .error .indexOutOfRange
    else .ok minPos
  match afterLeft with
  | .error f => .error f
  | .ok minPos =>
    let right := i * 2 + 1
    if right ≤ n then
      match idx data right, idx data minPos with
      | .ok a, .ok b => .ok (if compare a b < 0 then right else minPos)
      | _, _ => .error .indexOutOfRange
    else .ok minPos

/-- An unbounded delay queue holding the one item C, with the lock free. -/
def unboundedQueue : DelayQueue Job :=
  { q := ⟨0, [default, jobC], byDeadline⟩, mutex := false,
    dequeueSignal := ⟨0⟩, enqueueSignal := ⟨2⟩, chans := ⟨[1], 3⟩ }

/-- What wakes a `select` of `DelayQueue.Dequeue`: `ctx.Done()`, the timer
channel, or the gate handle it waits on. -/
inductive Wake where
  | cancelled (e : CtxErr)
  | timer
  | signal
  deriving DecidableEq, Repr

/-- The `select` of `DelayQueue.Enqueue` (lines 33-37) once it is woken:
`some e` when `ctx.Done()` fired, `none` when the handle was closed. -/
def DelayQueue.enqueueWake (d : DelayQueue T) (ctx : Option CtxErr) :
    EnqueueOutcome × DelayQueue T :=
  match ctx with
  | some e => (.returned (some (.ctx e)), d)
  | none => (.retry, d)

/-- The two `select` statements of `DelayQueue.Dequeue` (lines 75-94 and
97-102) once they are woken; the timer can only wake the first one. -/
def DelayQueue.dequeueWake [Inhabited T] (d : DelayQueue T) (w : Wake) (Delay : T → Int) :
    DequeueOutcome T × DelayQueue T :=
  match w with
  | .cancelled e => (.returned default (some (.ctx e)), d)
  | .timer => d.dequeueTimerFired Delay
  | .signal => (.retry, d)

/-- The outcomes at which `DelayQueue.Enqueue` has returned, waits in a
`select`, or starts its loop over. -/
def EnqueueOutcome.atWaitOrReturn : EnqueueOutcome → Bool
  | .returned _ => true
  | .waitSpace _ => true
  | .retry => true
  | .blockedOnLock => false
  | .crashed _ => false

/-- The outcomes at which `DelayQueue.Dequeue` has returned, waits in a
`select`, or starts its loop over. -/
def DequeueOutcome.atWaitOrReturn : DequeueOutcome T → Bool
  | .returned _ _ => true
  | .waitEnqueue _ => true
  | .waitReady _ => true
  | .retry => true
  | .blockedOnLock => false
  | .crashed _ => false

/-- The gates of a delay queue are in order: both current handles are open
and differ, and they and every closed channel were made before the next
fresh channel. -/
structure DelayQueue.GatesOk (d : DelayQueue T) : Prop where
  deqOpen : d.dequeueSignal.signal ∉ d.chans.closed
  enqOpen : d.enqueueSignal.signal ∉ d.chans.closed
  distinct : d.dequeueSignal.signal ≠ d.enqueueSignal.signal
  deqOld : d.dequeueSignal.signal < d.chans.fresh
  enqOld : d.enqueueSignal.signal < d.chans.fresh
  closedOld : ∀ x ∈ d.chans.closed, x < d.chans.fresh

/-- A delay queue of capacity 1 holding A, with the lock free. -/
def fullQueue : DelayQueue Job :=
  { q := ⟨1, [default, jobA], byDeadline⟩, mutex := false,
    dequeueSignal := ⟨0⟩, enqueueSignal := ⟨2⟩, chans := ⟨[1], 3⟩ }

/-- States of one gate reachable from `newCond` by `broadcast` and `signalCh`
calls made with the lock held; the list holds every handle the gate has had,
the current one first. -/
inductive GateReachable (h₀ : Chans) : cond → Chans → List Chan → Prop
  | init : GateReachable h₀ (newCond h₀).1 (newCond h₀).2 [(newCond h₀).1.signal]
  | broadcast {c c' : cond} {h h' : Chans} {hist : List Chan} {l : Bool} :
      GateReachable h₀ c h hist → c.broadcast true h = .ok (c', l, h') →
      GateReachable h₀ c' h' (c'.signal :: hist)
  | signalCh {c : cond} {h : Chans} {hist : List Chan} {res : Chan} {l : Bool} :
      GateReachable h₀ c h hist → c.signalCh true = .ok (res, l) →
      GateReachable h₀ c h hist

/-- What every reachable gate state satisfies. -/
structure GateInv (c : cond) (h : Chans) (hist : List Chan) : Prop where
  current : hist.head? = some c.signal
  isOpen : c.signal ∉ h.closed
  histOld : ∀ x ∈ hist, x < h.fresh
  closedOld : ∀ x ∈ h.closed, x < h.fresh
  histNodup : hist.Nodup
  closedNodup : h.closed.Nodup

/-- The backing capacity that `NewPriorityQueue` passes to `make` (lines 25-29). -/
def sliceCap (capacity : Int) : Int := if capacity < 1 then 64 else capacity + 1

/-- The built-in `append` of one element to a slice of `len` elements whose
backing array has `cap` slots: the array is kept while a slot is free;
otherwise a new array is allocated, of the size the run-time policy `grow`
gives. -/
def appendCap (grow : Int → Int) (len cap : Int) : Int :=
  if len < cap then cap else grow cap

/-- A heap together with `cap(p.data)`, the number of slots of the backing
array of its slice. -/
structure Backed (T : Type) where
  heap : PriorityQueue T
  slots : Int

namespace Backed

/-- Function `NewPriorityQueue` with the backing array it allocates. -/
def New [Inhabited T] (capacity : Int) (compare : Comparator T) : Backed T :=
  { heap := NewPriorityQueue capacity compare, slots := sliceCap capacity }

/-- Method `Peek`; it does not touch the slice. -/
def Peek [Inhabited T] (b : Backed T) : Except Fault ((T × Option Error) × Backed T) :=
  match b.heap.Peek with
  | .error f => .error f
  | .ok (r, p) => .ok (r, { heap := p, slots := b.slots })

/-- Method `Enqueue`; `append` runs exactly when the heap is not full, and the
swaps of the loop are made in place. -/
def Enqueue (grow : Int → Int) (b : Backed T) (t : T) :
    Except Fault (Option Error × Backed T) :=
  match b.heap.Enqueue t with
  | .error f => .error f
  | .ok (e, p) =>
    .ok (e, { heap := p,
              slots := if b.heap.isFull then b.slots
                       else appendCap grow b.heap.data.length b.slots })

/-- Method `Dequeue`; the reslicing `p.data[:len(p.data)-1]` and `heapify` keep
the backing array, and `shrinkIfNec` replaces it only on an unbounded heap,
by one of the size `shrunk` gives for the length and the old size. -/
def Dequeue [Inhabited T] (shrunk : Int → Int → Int) (b : Backed T) :
    Except Fault ((T × Option Error) × Backed T) :=
  match b.heap.Dequeue with
  | .error f => .error f
  | .ok (r, p) =>
    .ok (r, { heap := p,
              slots := if b.heap.isEmpty then b.slots
                       else if b.heap.IsBoundless then shrunk p.data.length b.slots
                       else b.slots })

/-- Heaps with their backing array reachable from `NewPriorityQueue` by calls
of `Enqueue`, `Dequeue` and `Peek` that return. -/
inductive Reachable [Inhabited T] (grow : Int → Int) (shrunk : Int → Int → Int)
    (capacity : Int) (compare : Comparator T) : Backed T → Prop
  | init : Reachable grow shrunk capacity compare (New capacity compare)
  | enqueue {b b' : Backed T} {t : T} {e : Option Error} :
      Reachable grow shrunk capacity compare b → b.Enqueue grow t = .ok (e, b') →
      Reachable grow shrunk capacity compare b'
  | dequeue {b b' : Backed T} {r : T × Option Error} :
      Reachable grow shrunk capacity compare b → b.Dequeue shrunk = .ok (r, b') →
      Reachable grow shrunk capacity compare b'
  | peek {b b' : Backed T} {r : T × Option Error} :
      Reachable grow shrunk capacity compare b → b.Peek = .ok (r, b') →
      Reachable grow shrunk capacity compare b'

end Backed

/-- A growth policy for `append`: double the array. -/
def doubleCap : Int → Int := fun c => 2 * c

/-- A shrink policy: keep the array. -/
def keepCap : Int → Int → Int := fun _ c => c

/-! ## The constructor on machine integers -/

open PriorityQueue

/-! ## Lists, indexing and swaps -/

theorem exists_getElem?_of_lt {data : List T} {i : Nat} (h : i < data.length) :
    ∃ x, data[i]? = some x :=
  ⟨data[i], List.getElem?_eq_getElem h⟩

theorem lt_of_getElem?_some {data : List T} {i : Nat} {x : T} (h : data[i]? = some x) :
    i < data.length := by
  by_contra hn
  rw [List.getElem?_eq_none (by omega)] at h
  cases h

theorem getElem?_swap {data : List T} {i j : Nat} {a b : T}
    (hi : data[i]? = some a) (hj : data[j]? = some b) (k : Nat) :
    ((data.set i b).set j a)[k]? =
      if k = j then some a else if k = i then some b else data[k]? := by
  have hil := lt_of_getElem?_some hi
  have hjl := lt_of_getElem?_some hj
  by_cases hkj : k = j
  · subst hkj
    simp [List.getElem?_set, hjl]
  · by_cases hki : k = i
    · subst hki
      simp [List.getElem?_set, hkj, hil, Ne.symm hkj]
    · simp [List.getElem?_set, hkj, hki, Ne.symm hkj, Ne.symm hki]

/-- Exchanging two slots permutes the list. -/
theorem swap_perm {data : List T} {i j : Nat} {a b : T}
    (hi : data[i]? = some a) (hj : data[j]? = some b) :
    List.Perm ((data.set i b).set j a) data := by
  classical
  have hil := lt_of_getElem?_some hi
  have hjl := lt_of_getElem?_some hj
  have hia : data[i] = a := by
    rw [List.getElem?_eq_getElem hil] at hi; exact Option.some.inj hi
  have hjb : data[j] = b := by
    rw [List.getElem?_eq_getElem hjl] at hj; exact Option.some.inj hj
  rw [List.perm_iff_count]
  intro c
  have hjl' : j < (data.set i b).length := by simpa using hjl
  rw [List.count_set _ _ _ _ hjl', List.count_set _ _ _ _ hil]
  have hca : 0 < List.count a data := List.count_pos_iff.mpr (hia ▸ List.getElem_mem hil)
  have hcb : 0 < List.count b data := List.count_pos_iff.mpr (hjb ▸ List.getElem_mem hjl)
  simp only [List.getElem_set, hia, hjb]
  by_cases hij : i = j
  · subst hij
    have hab : a = b := hia.symm.trans hjb
    subst hab
    by_cases hac : a = c
    · subst hac; simp; omega
    · simp [hac]
  · simp only [hij, if_false]
    by_cases hac : a = c <;> by_cases hbc : b = c
    · subst hac; subst hbc; simp; omega
    · subst hac; simp [hbc]; omega
    · subst hbc; simp [hac]
    · simp [hac, hbc]

/-! ## Sift-up -/

theorem siftUp_root (compare : Comparator T) (fuel : Nat) (data : List T) (node : Nat) :
    siftUp compare (fuel + 1) data node 0 = .ok data := by
  rw [siftUp]; simp

theorem siftUp_keep (compare : Comparator T) (fuel : Nat) {data : List T} {node parent : Nat}
    {a b : T} (ha : data[node]? = some a) (hb : data[parent]? = some b)
    (h : ¬ compare a b < 0) :
    siftUp compare (fuel + 1) data node parent = .ok data := by
  rw [siftUp]; simp [idx, ha, hb, h]

theorem siftUp_swap (compare : Comparator T) (fuel : Nat) {data : List T} {node parent : Nat}
    {a b : T} (hp : 0 < parent) (ha : data[node]? = some a) (hb : data[parent]? = some b)
    (h : compare a b < 0) :
    siftUp compare (fuel + 1) data node parent =
      siftUp compare fuel ((data.set node b).set parent a) parent (parent / 2) := by
  rw [siftUp]; simp [idx, ha, hb, h, hp, swapAt]

theorem TotalPreorder.le_of_not_lt {compare : Comparator T} (hc : TotalPreorder compare)
    {a b : T} (h : ¬ compare a b < 0) : compare b a ≤ 0 := by
  by_contra hn
  have : compare a b < 0 := (hc.flip a b).2 (by omega)
  exact h this

theorem TotalPreorder.refl {compare : Comparator T} (hc : TotalPreorder compare)
    (a : T) : compare a a ≤ 0 := by
  by_contra hn
  have h1 : compare a a < 0 := (hc.flip a a).2 (by omega)
  omega

/-- The sift-up loop returns within the budget, only permutes the slots after
slot 0, and restores the heap property from the sift-up invariant. -/
theorem siftUp_spec (compare : Comparator T) :
    ∀ (fuel : Nat) (data : List T) (node : Nat),
      node < data.length → node / 2 < fuel →
      ∃ out, siftUp compare fuel data node (node / 2) = .ok out ∧
        out.length = data.length ∧ List.Perm out data ∧ out[0]? = data[0]? ∧
        (TotalPreorder compare → UpInv compare data node → HeapInv compare out) := by
  intro fuel
  induction fuel with
  | zero => intro data node _ hf; omega
  | succ fuel ih =>
    intro data node hn hf
    by_cases hp : node / 2 = 0
    · rw [hp, siftUp_root]
      refine ⟨data, rfl, rfl, List.Perm.refl _, rfl, ?_⟩
      intro _ hinv k a b hk ha hb
      exact hinv.1 k a b hk (by omega) ha hb
    · obtain ⟨a, ha⟩ := exists_getElem?_of_lt hn
      obtain ⟨b, hb⟩ := exists_getElem?_of_lt (show node / 2 < data.length by omega)
      by_cases hlt : compare a b < 0
      · rw [siftUp_swap compare fuel (by omega) ha hb hlt]
        obtain ⟨out, ho, hlen, hperm, h0, hheap⟩ :=
          ih ((data.set node b).set (node / 2) a) (node / 2) (by simp; omega) (by omega)
        refine ⟨out, ho, by simpa using hlen, hperm.trans (swap_perm ha hb), ?_, ?_⟩
        · rw [h0, getElem?_swap ha hb, if_neg (by omega), if_neg (by omega)]
        · intro hc hinv
          apply hheap hc
          constructor
          · intro k x y hk hkn hx hy
            rw [getElem?_swap ha hb] at hx hy
            rw [if_neg hkn] at hy
            by_cases hk1 : k = node
            · subst hk1
              rw [if_pos rfl] at hx hy
              cases hx; cases hy
              omega
            · rw [if_neg hk1] at hy
              by_cases hk2 : k / 2 = node / 2
              · rw [if_pos hk2] at hx
                cases hx
                have := hinv.1 k b y hk hk1 (hk2 ▸ hb) hy
                exact hc.trans _ _ _ (by omega) this
              · rw [if_neg hk2] at hx
                by_cases hk3 : k / 2 = node
                · rw [if_pos hk3] at hx
                  cases hx
                  exact hinv.2 k _ y (by omega) hk3 hb hy
                · rw [if_neg hk3] at hx
                  exact hinv.1 k x y hk hk1 hx hy
          · intro k x y hp2 hkp hx hy
            rw [getElem?_swap ha hb] at hx hy
            rw [if_neg (by omega), if_neg (by omega)] at hx
            rw [if_neg (by omega)] at hy
            have hpar := hinv.1 (node / 2) x b hp2 (by omega) hx hb
            by_cases hk1 : k = node
            · rw [if_pos hk1] at hy
              cases hy
              exact hpar
            · rw [if_neg hk1] at hy
              have := hinv.1 k b y (by omega) hk1 (hkp ▸ hb) hy
              exact hc.trans _ _ _ hpar this
      · rw [siftUp_keep compare _ ha hb hlt]
        refine ⟨data, rfl, rfl, List.Perm.refl _, rfl, ?_⟩
        intro hc hinv k x y hk hx hy
        by_cases hk1 : k = node
        · subst hk1
          rw [ha] at hy; rw [hb] at hx
          cases hx; cases hy
          exact hc.le_of_not_lt hlt
        · exact hinv.1 k x y hk hk1 hx hy

/-! ## Sift-down -/

/-- One iteration of the sift-down loop: it either stops, with both children
not smaller than the node, or swaps the node with a child that is not larger
than the node and than the other child. -/
theorem heapifyLoop_step (compare : Comparator T) (fuel : Nat) (data : List T) (n i : Nat)
    (hn : n < data.length) (hi : 1 ≤ i) :
    (heapifyLoop compare (fuel + 1) data n i = .ok data ∧
      (TotalPreorder compare → ∀ k x y, k / 2 = i → k ≤ n → data[i]? = some x →
        data[k]? = some y → compare x y ≤ 0)) ∨
    ∃ m a b, i < m ∧ m / 2 = i ∧ m ≤ n ∧ data[i]? = some b ∧ data[m]? = some a ∧
      heapifyLoop compare (fuel + 1) data n i =
        heapifyLoop compare fuel ((data.set i a).set m b) n m ∧
      (TotalPreorder compare → compare a b ≤ 0 ∧
        ∀ k y, k / 2 = i → k ≤ n → data[k]? = some y → compare a y ≤ 0) := by
  by_cases hl : i * 2 ≤ n
  · obtain ⟨b, hb⟩ := exists_getElem?_of_lt (show i < data.length by omega)
    obtain ⟨l, hL⟩ := exists_getElem?_of_lt (show i * 2 < data.length by omega)
    have hne : ¬ (i * 2 = i) := by omega
    have hne2 : ¬ (i * 2 + 1 = i) := by omega
    by_cases hr : i * 2 + 1 ≤ n
    · obtain ⟨r, hR⟩ := exists_getElem?_of_lt (show i * 2 + 1 < data.length by omega)
      by_cases hlb : compare l b < 0
      · by_cases hrl : compare r l < 0
        · right
          refine ⟨i * 2 + 1, r, b, by omega, by omega, hr, hb, hR, ?_, ?_⟩
          · rw [heapifyLoop]
            simp [idx, hl, hr, hb, hL, hR, hlb, hrl, hne2, swapAt]
          · intro hc
            have h1 : compare r l ≤ 0 := by omega
            have h2 : compare l b ≤ 0 := by omega
            refine ⟨hc.trans _ _ _ h1 h2, ?_⟩
            intro k y hk _ hy
            have hk2 : k = i * 2 ∨ k = i * 2 + 1 := by omega
            rcases hk2 with hk2 | hk2
            · subst hk2; rw [hL] at hy; cases hy; exact h1
            · subst hk2; rw [hR] at hy; cases hy; exact hc.refl _
        · right
          refine ⟨i * 2, l, b, by omega, by omega, hl, hb, hL, ?_, ?_⟩
          · rw [heapifyLoop]
            simp [idx, hl, hr, hb, hL, hR, hlb, hrl, hne, swapAt]
          · intro hc
            refine ⟨by omega, ?_⟩
            intro k y hk _ hy
            have hk2 : k = i * 2 ∨ k = i * 2 + 1 := by omega
            rcases hk2 with hk2 | hk2
            · subst hk2; rw [hL] at hy; cases hy; exact hc.refl _
            · subst hk2; rw [hR] at hy; cases hy; exact hc.le_of_not_lt hrl
      · by_cases hrb : compare r b < 0
        · right
          refine ⟨i * 2 + 1, r, b, by omega, by omega, hr, hb, hR, ?_, ?_⟩
          · rw [heapifyLoop]
            simp [idx, hl, hr, hb, hL, hR, hlb, hrb, hne2, swapAt]
          · intro hc
            have h1 : compare r b ≤ 0 := by omega
            refine ⟨h1, ?_⟩
            intro k y hk _ hy
            have hk2 : k = i * 2 ∨ k = i * 2 + 1 := by omega
            rcases hk2 with hk2 | hk2
            · subst hk2; rw [hL] at hy; cases hy
              exact hc.trans _ _ _ h1 (hc.le_of_not_lt hlb)
            · subst hk2; rw [hR] at hy; cases hy; exact hc.refl _
        · left
          constructor
          · rw [heapifyLoop]
            simp [idx, hl, hr, hb, hL, hR, hlb, hrb]
          · intro hc k x y hk _ hx hy
            rw [hb] at hx; cases hx
            have hk2 : k = i * 2 ∨ k = i * 2 + 1 := by omega
            rcases hk2 with hk2 | hk2
            · subst hk2; rw [hL] at hy; cases hy; exact hc.le_of_not_lt hlb
            · subst hk2; rw [hR] at hy; cases hy; exact hc.le_of_not_lt hrb
    · by_cases hlb : compare l b < 0
      · right
        refine ⟨i * 2, l, b, by omega, by omega, hl, hb, hL, ?_, ?_⟩
        · rw [heapifyLoop]
          simp [idx, hl, hr, hb, hL, hlb, hne, swapAt]
        · intro hc
          refine ⟨by omega, ?_⟩
          intro k y hk hkn hy
          have hk2 : k = i * 2 := by omega
          subst hk2; rw [hL] at hy; cases hy; exact hc.refl _
      · left
        constructor
        · rw [heapifyLoop]
          simp [idx, hl, hr, hb, hL, hlb]
        · intro hc k x y hk hkn hx hy
          rw [hb] at hx; cases hx
          have hk2 : k = i * 2 := by omega
          subst hk2; rw [hL] at hy; cases hy; exact hc.le_of_not_lt hlb
  · left
    constructor
    · rw [heapifyLoop]
      have hr : ¬ (i * 2 + 1 ≤ n) := by omega
      simp [hl, hr]
    · intro _ k x y hk hkn _ _
      omega

/-- The sift-down loop returns within the budget, only permutes the slots
after slot 0, and restores the heap property from the sift-down invariant. -/
theorem heapifyLoop_spec (compare : Comparator T) :
    ∀ (fuel : Nat) (data : List T) (n i : Nat),
      n + 1 = data.length → 1 ≤ i → i ≤ n + 1 → n + 2 ≤ fuel + i →
      ∃ out, heapifyLoop compare fuel data n i = .ok out ∧
        out.length = data.length ∧ List.Perm out data ∧ out[0]? = data[0]? ∧
        (TotalPreorder compare → DownInv compare data i → HeapInv compare out) := by
  intro fuel
  induction fuel with
  | zero => intro data n i _ _ h1 h2; omega
  | succ fuel ih =>
    intro data n i hlen hi hin hf
    rcases heapifyLoop_step compare fuel data n i (by omega) hi with
      ⟨hstop, hfact⟩ | ⟨m, a, b, him, hmi, hmn, hb, ha, hrec, hfact⟩
    · refine ⟨data, hstop, rfl, List.Perm.refl _, rfl, ?_⟩
      intro hc hinv k x y hk hx hy
      by_cases hki : k / 2 = i
      · have hkl := lt_of_getElem?_some hy
        exact hfact hc k x y hki (by omega) (hki ▸ hx) hy
      · exact hinv.1 k x y hk hki hx hy
    · obtain ⟨out, ho, hlen2, hperm, h0, hheap⟩ :=
        ih ((data.set i a).set m b) n m (by simpa using hlen) (by omega) (by omega) (by omega)
      refine ⟨out, hrec.trans ho, by simpa using hlen2, hperm.trans (swap_perm hb ha), ?_, ?_⟩
      · rw [h0, getElem?_swap hb ha, if_neg (by omega), if_neg (by omega)]
      · intro hc hinv
        obtain ⟨hab, hkids⟩ := hfact hc
        apply hheap hc
        constructor
        · intro k x y hk hkm hx hy
          rw [getElem?_swap hb ha] at hx hy
          rw [if_neg hkm] at hx
          by_cases hk1 : k = m
          · subst hk1
            rw [if_pos hmi] at hx
            rw [if_pos rfl] at hy
            cases hx; cases hy
            exact hab
          · rw [if_neg hk1] at hy
            have hkl : k ≤ n := by
              by_cases hki : k = i
              · omega
              · rw [if_neg hki] at hy
                have := lt_of_getElem?_some hy
                omega
            by_cases hk2 : k = i
            · subst hk2
              rw [if_pos rfl] at hy
              cases hy
              rw [if_neg (by omega)] at hx
              exact hinv.2 m x _ hk hmi hx ha
            · rw [if_neg hk2] at hy
              by_cases hk3 : k / 2 = i
              · rw [if_pos hk3] at hx
                cases hx
                exact hkids k y hk3 hkl hy
              · rw [if_neg hk3] at hx
                exact hinv.1 k x y hk hk3 hx hy
        · intro k x y hm2 hkm hx hy
          rw [getElem?_swap hb ha] at hx hy
          rw [if_neg (by omega), if_pos hmi] at hx
          rw [if_neg (by omega), if_neg (by omega)] at hy
          cases hx
          exact hinv.1 k _ y (by omega) (by omega) (hkm ▸ ha) hy

/-! ## Enqueue and Dequeue -/

theorem tail_perm_of_perm {l₁ l₂ : List T} (hp : List.Perm l₁ l₂) (h0 : l₁[0]? = l₂[0]?) :
    List.Perm l₁.tail l₂.tail := by
  cases l₁ with
  | nil =>
    have := hp.length_eq
    cases l₂ with
    | nil => exact List.Perm.refl _
    | cons b t => simp at this
  | cons a s =>
    cases l₂ with
    | nil => have := hp.length_eq; simp at this
    | cons b t =>
      simp at h0
      subst h0
      exact hp.cons_inv

theorem enqueue_full (p : PriorityQueue T) (t : T) (h : p.isFull = true) :
    p.Enqueue t = .ok (some .ErrOutOfCapacity, p) := by
  simp [Enqueue, h]

/-- On a heap that is not full `Enqueue` returns nil, adds exactly the new item
and keeps the heap property. -/
theorem enqueue_spec (p : PriorityQueue T) (t : T) (h : p.isFull = false) :
    ∃ out, p.Enqueue t = .ok (none, { p with data := out }) ∧
      out.length = p.data.length + 1 ∧ List.Perm out (p.data ++ [t]) ∧
      out[0]? = (p.data ++ [t])[0]? ∧
      (TotalPreorder p.compare → HeapInv p.compare p.data → HeapInv p.compare out) := by
  obtain ⟨out, ho, hlen, hperm, h0, hheap⟩ :=
    siftUp_spec p.compare (p.data ++ [t]).length (p.data ++ [t]) ((p.data ++ [t]).length - 1)
      (by simp) (by simp; omega)
  refine ⟨out, ?_, by simpa using hlen, hperm, h0, ?_⟩
  · simp only [Enqueue, h]
    simp only [ho]
    simp
  · intro hc hinv
    apply hheap hc
    constructor
    · intro k a b hk hkn ha hb
      have hkl := lt_of_getElem?_some hb
      simp at hkl hkn
      have hk' : k < p.data.length := by omega
      rw [List.getElem?_append_left hk'] at hb
      rw [List.getElem?_append_left (by omega)] at ha
      exact hinv k a b hk ha hb
    · intro k a b hn hkn _ hb
      have hkl := lt_of_getElem?_some hb
      simp at hkl hkn hn
      omega

theorem take_set_perm (l : List T) (x last : T) (h : (x :: l)[l.length]? = some last) :
    List.Perm ((last :: l).take l.length) l := by
  rcases List.eq_nil_or_concat l with hl | ⟨init, z, hl⟩
  · subst hl; simp
  · subst hl
    simp only [List.concat_eq_append] at h ⊢
    have hz : z = last := by
      simpa [List.getElem?_append_right] using h
    subst hz
    simp [List.take_append_eq_append_take, List.take_succ_cons]
    exact (List.perm_append_singleton z init).symm

theorem dequeue_empty [Inhabited T] (p : PriorityQueue T) (h : p.isEmpty = true) :
    p.Dequeue = .ok ((default, some .ErrEmptyQueue), p) := by
  simp [Dequeue, h]

theorem dequeue_panic [Inhabited T] (p : PriorityQueue T) (h : p.isEmpty = false)
    (hlen : p.data.length < 2) : p.Dequeue = .error .indexOutOfRange := by
  have h1 : p.data[1]? = none := List.getElem?_eq_none (by omega)
  simp [Dequeue, h, idx, h1]

theorem shrinkIfNec_data (p : PriorityQueue T) : p.shrinkIfNec = p := by
  unfold shrinkIfNec slice.Shrink
  split <;> rfl

/-- On a heap whose emptiness test fails and that stores at least one item,
`Dequeue` returns `data[1]` with a nil error, removes exactly that item and
keeps the heap property. -/
theorem dequeue_spec [Inhabited T] (p : PriorityQueue T) (h : p.isEmpty = false)
    (d0 x : T) (rest : List T) (hdata : p.data = d0 :: x :: rest) :
    ∃ out, p.Dequeue = .ok ((x, none), { p with data := out }) ∧
      out.length = p.data.length - 1 ∧ List.Perm (x :: out.tail) p.data.tail ∧
      out[0]? = some d0 ∧
      (TotalPreorder p.compare → HeapInv p.compare p.data → HeapInv p.compare out) := by
  obtain ⟨last, hlast⟩ := exists_getElem?_of_lt (show p.data.length - 1 < p.data.length by
    rw [hdata]; simp)
  have h1 : p.data[1]? = some x := by rw [hdata]; simp
  have hmid : (p.data.set 1 last).take ((p.data.set 1 last).length - 1) =
      d0 :: (last :: rest).take rest.length := by
    rw [hdata]; simp
  have hlast' : (x :: rest)[rest.length]? = some last := by
    rw [hdata] at hlast; simpa using hlast
  obtain ⟨out, ho, hlen, hperm, h0, hheap⟩ :=
    heapifyLoop_spec p.compare (rest.length + 1)
      (d0 :: (last :: rest).take rest.length) rest.length 1
      (by simp) (by omega) (by omega) (by omega)
  refine ⟨out, ?_, ?_, ?_, ?_, ?_⟩
  · simp only [Dequeue, h, idx, h1, hlast, shrinkIfNec_data, heapify]
    simp only [hmid]
    simp [ho]
  · rw [hlen, hdata]; simp
  · have ht := tail_perm_of_perm hperm h0
    rw [hdata]
    simp only [List.tail_cons] at ht ⊢
    exact List.Perm.cons x (ht.trans (take_set_perm rest x last hlast'))
  · rw [h0]; simp
  · intro hc hinv
    apply hheap hc
    constructor
    · intro k a b hk hk1 ha hb
      have key : ∀ j v, 2 ≤ j →
          (d0 :: (last :: rest).take rest.length)[j]? = some v →
          p.data[j]? = some v := by
        intro j v hj hv
        rw [← hmid, List.getElem?_take] at hv
        split at hv
        · rw [List.getElem?_set_ne (by omega)] at hv
          exact hv
        · cases hv
      exact hinv k a b hk (key _ a (by omega) ha) (key _ b hk hb)
    · intro k a b h2 _ _ _
      omega

/-! ## Reachable heaps -/

/-- In a heap the root compares `≤` every stored item. -/
theorem root_le_all {compare : Comparator T} (hc : TotalPreorder compare) {data : List T}
    (hinv : HeapInv compare data) {x : T} (hx : data[1]? = some x) :
    ∀ k y, 1 ≤ k → data[k]? = some y → compare x y ≤ 0 := by
  intro k
  induction k using Nat.strong_induction_on with
  | _ k ih =>
    intro y hk hy
    by_cases h1 : k = 1
    · subst h1
      rw [hx] at hy; cases hy
      exact hc.refl _
    · have hkl := lt_of_getElem?_some hy
      obtain ⟨z, hz⟩ := exists_getElem?_of_lt (show k / 2 < data.length by omega)
      have h2 := ih (k / 2) (by omega) z (by omega) hz
      exact hc.trans _ _ _ h2 (hinv k z y (by omega) hz hy)

theorem mem_tail_iff_getElem? {data : List T} {y : T} (h : y ∈ data.tail) :
    ∃ k, 1 ≤ k ∧ data[k]? = some y := by
  cases data with
  | nil => simp at h
  | cons a t =>
    simp only [List.tail_cons] at h
    obtain ⟨k, hk, hky⟩ := List.getElem_of_mem h
    refine ⟨k + 1, by omega, ?_⟩
    simp [List.getElem?_eq_getElem hk, hky]

theorem isFull_eq_false_iff (p : PriorityQueue T) :
    p.isFull = false ↔ ¬ (0 < p.capacity ∧ (p.data.length : Int) - 1 = p.capacity) := by
  simp [isFull]

theorem enqueue_cases (p : PriorityQueue T) (t : T) :
    (p.isFull = true ∧ p.Enqueue t = .ok (some .ErrOutOfCapacity, p)) ∨
    (p.isFull = false ∧ ∃ out, p.Enqueue t = .ok (none, { p with data := out }) ∧
      out.length = p.data.length + 1 ∧ List.Perm out (p.data ++ [t]) ∧
      out[0]? = (p.data ++ [t])[0]? ∧
      (TotalPreorder p.compare → HeapInv p.compare p.data → HeapInv p.compare out)) := by
  cases h : p.isFull
  · exact Or.inr ⟨rfl, enqueue_spec p t h⟩
  · exact Or.inl ⟨rfl, enqueue_full p t h⟩

theorem dequeue_cases [Inhabited T] (p : PriorityQueue T) :
    (p.isEmpty = true ∧ p.Dequeue = .ok ((default, some .ErrEmptyQueue), p)) ∨
    (p.isEmpty = false ∧ p.data.length < 2 ∧ p.Dequeue = .error .indexOutOfRange) ∨
    (p.isEmpty = false ∧ ∃ d0 x rest out, p.data = d0 :: x :: rest ∧
      p.Dequeue = .ok ((x, none), { p with data := out }) ∧
      out.length = p.data.length - 1 ∧ List.Perm (x :: out.tail) p.data.tail ∧
      out[0]? = some d0 ∧
      (TotalPreorder p.compare → HeapInv p.compare p.data → HeapInv p.compare out)) := by
  cases h : p.isEmpty
  · right
    match hd : p.data with
    | [] => left; exact ⟨rfl, by simp, dequeue_panic p h (by simp [hd])⟩
    | [_] => left; exact ⟨rfl, by simp, dequeue_panic p h (by simp [hd])⟩
    | d0 :: x :: rest =>
      right
      obtain ⟨out, h1, h2, h3, h4, h5⟩ := dequeue_spec p h d0 x rest hd
      exact ⟨rfl, d0, x, rest, out, rfl, h1, hd ▸ h2, hd ▸ h3, h4, hd ▸ h5⟩
  · exact Or.inl ⟨rfl, dequeue_empty p h⟩

theorem good_new [Inhabited T] (capacity : Int) (compare : Comparator T) :
    Good capacity compare (NewPriorityQueue capacity compare) := by
  refine ⟨rfl, rfl, rfl, ?_, ?_⟩
  · intro h
    simp only [NewPriorityQueue] at h ⊢
    simp; omega
  · intro _ k a b hk _ hb
    have := lt_of_getElem?_some hb
    simp [NewPriorityQueue] at this
    omega

theorem good_enqueue [Inhabited T] {capacity : Int} {compare : Comparator T}
    {p p' : PriorityQueue T} {t : T} {e : Option Error}
    (hg : Good capacity compare p) (h : p.Enqueue t = .ok (e, p')) :
    Good capacity compare p' := by
  rcases enqueue_cases p t with ⟨_, hE⟩ | ⟨hf, out, hE, hlen, _, h0, hheap⟩
  · rw [hE] at h
    cases h
    exact hg
  · rw [hE] at h
    cases h
    have hl := lt_of_getElem?_some hg.head
    refine ⟨hg.cmp, hg.cap, ?_, ?_, ?_⟩
    · show out[0]? = some default
      rw [h0, List.getElem?_append_left hl, hg.head]
    · intro hpos
      show (out.length : Int) - 1 ≤ p.capacity
      have hb := hg.bound hpos
      rw [isFull_eq_false_iff] at hf
      rw [hlen]
      push_cast
      have : ¬ ((p.data.length : Int) - 1 = p.capacity) := fun h => hf ⟨hpos, h⟩
      omega
    · intro hc
      have := hg.cmp
      exact this ▸ hheap (this ▸ hc) (this ▸ hg.heap hc)

theorem good_dequeue [Inhabited T] {capacity : Int} {compare : Comparator T}
    {p p' : PriorityQueue T} {r : T × Option Error}
    (hg : Good capacity compare p) (h : p.Dequeue = .ok (r, p')) :
    Good capacity compare p' := by
  rcases dequeue_cases p with ⟨_, hD⟩ | ⟨_, _, hD⟩ | ⟨_, d0, x, rest, out, hdata, hD, hlen, _, h0, hheap⟩
  · rw [hD] at h
    cases h
    exact hg
  · rw [hD] at h
    cases h
  · rw [hD] at h
    cases h
    refine ⟨hg.cmp, hg.cap, ?_, ?_, ?_⟩
    · show out[0]? = some default
      have := hg.head
      rw [hdata] at this
      simp at this
      rw [h0, this]
    · intro hpos
      show (out.length : Int) - 1 ≤ p.capacity
      have hb := hg.bound hpos
      rw [hlen]
      omega
    · intro hc
      have := hg.cmp
      exact this ▸ hheap (this ▸ hc) (this ▸ hg.heap hc)

/-- Every reachable heap keeps its comparator and capacity, the reserved slot,
the capacity bound and the heap property. -/
theorem good_of_reachable [Inhabited T] {capacity : Int} {compare : Comparator T}
    {p : PriorityQueue T} (hr : Reachable capacity compare p) : Good capacity compare p := by
  induction hr with
  | init => exact good_new capacity compare
  | enqueue _ h ih => exact good_enqueue ih h
  | dequeue _ h ih => exact good_dequeue ih h

theorem intCompare_totalPreorder : TotalPreorder intCompare := by
  constructor
  · intro a b; unfold intCompare; omega
  · intro a b c; unfold intCompare; omega

theorem enqueueAll_ok (xs : List T) :
    ∀ p : PriorityQueue T,
      (0 < p.capacity → (p.data.length : Int) - 1 + xs.length ≤ p.capacity) →
      ∃ q, enqueueAll p xs = .ok (List.replicate xs.length none, q) ∧
        q.capacity = p.capacity ∧ q.compare = p.compare ∧
        q.data.length = p.data.length + xs.length ∧
        List.Perm q.data (p.data ++ xs) ∧ (p.data ≠ [] → q.data[0]? = p.data[0]?) ∧
        (TotalPreorder p.compare → HeapInv p.compare p.data → HeapInv p.compare q.data) := by
  induction xs with
  | nil =>
    intro p _
    exact ⟨p, rfl, rfl, rfl, rfl, by simp, fun _ => rfl, fun _ h => h⟩
  | cons t ts ih =>
    intro p hcap
    have hf : p.isFull = false := by
      rw [isFull_eq_false_iff]
      rintro ⟨hpos, heq⟩
      have := hcap hpos
      simp only [List.length_cons] at this
      push_cast at this
      omega
    obtain ⟨out, hE, hlen, hperm, h0, hheap⟩ := enqueue_spec p t hf
    obtain ⟨q, hq, hqcap, hqcmp, hqlen, hqperm, hq0, hqheap⟩ :=
      ih { p with data := out } (by
        intro hpos
        have := hcap hpos
        simp only [List.length_cons] at this
        push_cast at this
        show ((out.length : Int) - 1 + ts.length ≤ p.capacity)
        rw [hlen]; push_cast; omega)
    refine ⟨q, ?_, hqcap, hqcmp, ?_, ?_, ?_, ?_⟩
    · simp only [enqueueAll, hE, hq, List.length_cons, List.replicate_succ]
    · rw [hqlen]; show out.length + ts.length = _; rw [hlen]; simp; omega
    · refine hqperm.trans ?_
      show List.Perm (out ++ ts) (p.data ++ t :: ts)
      have : p.data ++ t :: ts = (p.data ++ [t]) ++ ts := by simp
      rw [this]
      exact hperm.append_right ts
    · intro hne
      have hout : out ≠ [] := by
        intro h; rw [h] at hlen; simp at hlen
      rw [hq0 hout]
      show out[0]? = _
      rw [h0, List.getElem?_append_left (List.length_pos.mpr hne)]
    · intro hc hinv
      exact hqheap hc (hheap hc hinv)

theorem reach_013 : Reachable 2 intCompare ⟨2, [0, 1, 3], intCompare⟩ :=
  have h1 : Reachable 2 intCompare ⟨2, [0, 3], intCompare⟩ :=
    Reachable.enqueue Reachable.init
      (show (NewPriorityQueue 2 intCompare).Enqueue 3 = .ok (none, _) from rfl)
  Reachable.enqueue h1
    (show PriorityQueue.Enqueue ⟨2, [0, 3], intCompare⟩ 1 = .ok (none, _) from rfl)

/-- Claim C2: on every heap reachable from `NewPriorityQueue` by `Enqueue` and
`Dequeue` calls, with a comparator that is a total preorder, a `Dequeue` that
returns an item with a nil error returns an item that compares `≤` every item
stored at that moment; the items stored afterwards are the previous ones minus
that one item, and `Len` has decreased by one. -/
theorem dequeue_returns_minimum [Inhabited T] (capacity : Int) (compare : Comparator T)
    (p p' : PriorityQueue T) (x : T) (hc : TotalPreorder compare)
    (hr : Reachable capacity compare p) (hd : p.Dequeue = .ok ((x, none), p')) :
    (∀ y ∈ p.items, compare x y ≤ 0) ∧ List.Perm p.items (x :: p'.items) ∧
      p'.Len = p.Len - 1 := by
  have hg := good_of_reachable hr
  rcases dequeue_cases p with ⟨_, hD⟩ | ⟨_, _, hD⟩ |
    ⟨_, d0, z, rest, out, hdata, hD, hlen, hperm, _, _⟩
  · rw [hD] at hd; cases hd
  · rw [hD] at hd; cases hd
  · rw [hD] at hd
    cases hd
    refine ⟨?_, hperm.symm, ?_⟩
    · intro y hy
      obtain ⟨k, hk, hky⟩ := mem_tail_iff_getElem? hy
      exact root_le_all hc (hg.heap hc) (by rw [hdata]; simp) k y hk hky
    · show ((out.length : Int) - 1 = (p.data.length : Int) - 1 - 1)
      rw [hlen, hdata]; simp

theorem dequeue_returns_minimum_witness :
    TotalPreorder intCompare ∧
    Reachable 2 intCompare ⟨2, [0, 1, 3], intCompare⟩ ∧
    PriorityQueue.Dequeue ⟨2, [0, 1, 3], intCompare⟩ = .ok ((1, none), ⟨2, [0, 3], intCompare⟩) ∧
    ((∀ y ∈ items ⟨2, [0, 1, 3], intCompare⟩, intCompare 1 y ≤ 0) ∧
      List.Perm (items ⟨2, [0, 1, 3], intCompare⟩) (1 :: items ⟨2, [0, 3], intCompare⟩) ∧
      Len ⟨2, [0, 3], intCompare⟩ = Len ⟨2, [0, 1, 3], intCompare⟩ - 1) :=
  ⟨intCompare_totalPreorder, reach_013, rfl,
    dequeue_returns_minimum 2 intCompare _ _ 1 intCompare_totalPreorder reach_013 rfl⟩

theorem peek_cases [Inhabited T] (p : PriorityQueue T) :
    (p.isEmpty = true ∧ p.Peek = .ok ((default, some .ErrEmptyQueue), p)) ∨
    (p.isEmpty = false ∧ p.data.length < 2 ∧ p.Peek = .error .indexOutOfRange) ∨
    (p.isEmpty = false ∧ ∃ x, p.data[1]? = some x ∧ p.Peek = .ok ((x, none), p)) := by
  cases h : p.isEmpty
  · right
    by_cases hl : 1 < p.data.length
    · right
      obtain ⟨x, hx⟩ := exists_getElem?_of_lt hl
      exact ⟨rfl, x, hx, by simp [Peek, h, idx, hx]⟩
    · left
      have h1 : p.data[1]? = none := List.getElem?_eq_none (by omega)
      exact ⟨rfl, by omega, by simp [Peek, h, idx, h1]⟩
  · exact Or.inl ⟨rfl, by simp [Peek, h]⟩

/-- Claim C6: on every heap reachable from `NewPriorityQueue` by `Enqueue` and
`Dequeue` calls, with a comparator that is a total preorder, a `Peek` that
returns a nil error returns the root `data[1]`, which compares `≤` every stored
item; the heap after the call has the same `data`, `Len` and `Cap`, and a
following `Dequeue` returns that same item with a nil error. -/
theorem peek_returns_root [Inhabited T] (capacity : Int) (compare : Comparator T)
    (p p' : PriorityQueue T) (x : T) (hc : TotalPreorder compare)
    (hr : Reachable capacity compare p) (hp : p.Peek = .ok ((x, none), p')) :
    p.data[1]? = some x ∧ (∀ y ∈ p.items, compare x y ≤ 0) ∧
      p'.data = p.data ∧ p'.Len = p.Len ∧ p'.Cap = p.Cap ∧
      ∃ q, p'.Dequeue = .ok ((x, none), q) := by
  have hg := good_of_reachable hr
  rcases peek_cases p with ⟨_, hP⟩ | ⟨_, _, hP⟩ | ⟨hne, z, hz, hP⟩
  · rw [hP] at hp; cases hp
  · rw [hP] at hp; cases hp
  · rw [hP] at hp
    cases hp
    refine ⟨hz, ?_, rfl, rfl, rfl, ?_⟩
    · intro y hy
      obtain ⟨k, hk, hky⟩ := mem_tail_iff_getElem? hy
      exact root_le_all hc (hg.heap hc) hz k y hk hky
    · rcases dequeue_cases p with ⟨he, _⟩ | ⟨_, hl, _⟩ | ⟨_, d0, w, rest, out, hdata, hD, _⟩
      · rw [hne] at he; cases he
      · have := lt_of_getElem?_some hz
        omega
      · rw [hdata] at hz
        simp at hz
        subst hz
        exact ⟨_, hD⟩

theorem peek_returns_root_witness :
    TotalPreorder intCompare ∧
    Reachable 2 intCompare ⟨2, [0, 1, 3], intCompare⟩ ∧
    PriorityQueue.Peek ⟨2, [0, 1, 3], intCompare⟩ =
      .ok ((1, none), ⟨2, [0, 1, 3], intCompare⟩) ∧
    (([0, 1, 3] : List Int)[1]? = some 1 ∧
      (∀ y ∈ items ⟨2, [0, 1, 3], intCompare⟩, intCompare 1 y ≤ 0) ∧
      ([0, 1, 3] : List Int) = [0, 1, 3] ∧
      Len ⟨2, [0, 1, 3], intCompare⟩ = Len ⟨2, [0, 1, 3], intCompare⟩ ∧
      Cap ⟨2, [0, 1, 3], intCompare⟩ = Cap ⟨2, [0, 1, 3], intCompare⟩ ∧
      ∃ q, PriorityQueue.Dequeue ⟨2, [0, 1, 3], intCompare⟩ = .ok ((1, none), q)) :=
  ⟨intCompare_totalPreorder, reach_013, rfl,
    peek_returns_root 2 intCompare _ _ 1 intCompare_totalPreorder reach_013 rfl⟩

/-- Claim C3: on a heap created with a capacity `C ≥ 1`, `IsBoundless` is
false, `Enqueue` of any `C` items returns nil every time, and the next
`Enqueue` returns `ErrOutOfCapacity` and leaves the heap, hence the stored
items and `Len`, as it was. -/
theorem bounded_rejects_beyond_capacity [Inhabited T] (C : Int) (compare : Comparator T)
    (xs : List T) (y : T) (hC : 1 ≤ C) (hlen : (xs.length : Int) = C) :
    (NewPriorityQueue C compare).IsBoundless = false ∧
    ∃ p, enqueueAll (NewPriorityQueue C compare) xs =
        .ok (List.replicate xs.length none, p) ∧
      p.Len = C ∧ p.IsBoundless = false ∧
      p.Enqueue y = .ok (some .ErrOutOfCapacity, p) := by
  have hcap : (NewPriorityQueue C compare).capacity = C := by
    simp only [NewPriorityQueue]; rw [if_neg (by omega)]
  have hdata : (NewPriorityQueue C compare).data = [default] := rfl
  obtain ⟨q, hq, hqcap, _, hqlen, _⟩ := enqueueAll_ok xs (NewPriorityQueue C compare) (by
    intro _; rw [hcap, hdata]; simp; omega)
  have hb : ∀ r : PriorityQueue T, r.capacity = C → r.IsBoundless = false := by
    intro r hr; simp [IsBoundless, hr]; omega
  refine ⟨hb _ hcap, q, hq, ?_, hb _ (hqcap.trans hcap), ?_⟩
  · show (q.data.length : Int) - 1 = C
    rw [hqlen, hdata]; simp; omega
  · apply enqueue_full
    simp only [isFull, hqcap, hcap, hqlen, hdata]
    simp; constructor <;> omega

theorem bounded_rejects_beyond_capacity_witness :
    (1 : Int) ≤ 2 ∧ (([5, 4] : List Int).length : Int) = 2 ∧
    ((NewPriorityQueue 2 intCompare).IsBoundless = false ∧
    ∃ p, enqueueAll (NewPriorityQueue 2 intCompare) [5, 4] =
        .ok (List.replicate ([5, 4] : List Int).length none, p) ∧
      p.Len = 2 ∧ p.IsBoundless = false ∧
      p.Enqueue 9 = .ok (some .ErrOutOfCapacity, p)) :=
  ⟨by decide, by decide,
    bounded_rejects_beyond_capacity 2 intCompare [5, 4] 9 (by decide) (by decide)⟩

/-- Capacity modes of the heap the constructor returns once its allocation
has succeeded: for `c ≤ 0` it is unbounded (`IsBoundless` true, `Cap` 0) in
every reachable state, and `Enqueue` there always returns nil; for `c ≥ 1`
`IsBoundless` is false and `Cap` is `c`. -/
theorem capacity_selects_mode [Inhabited T] (c : Int) (compare : Comparator T) :
    (c ≤ 0 →
      (NewPriorityQueue c compare).IsBoundless = true ∧
      (NewPriorityQueue c compare).Cap = 0 ∧
      ∀ p, Reachable c compare p →
        p.IsBoundless = true ∧ p.Cap = 0 ∧ ∀ t, ∃ p', p.Enqueue t = .ok (none, p')) ∧
    (1 ≤ c →
      (NewPriorityQueue c compare).IsBoundless = false ∧
      (NewPriorityQueue c compare).Cap = c) := by
  constructor
  · intro hc
    have h0 : ∀ p, Reachable c compare p → p.capacity = 0 := by
      intro p hr
      rw [(good_of_reachable hr).cap, if_pos (by omega)]
    have hn := h0 (NewPriorityQueue c compare) Reachable.init
    refine ⟨by simp [IsBoundless, hn], hn, ?_⟩
    intro p hr
    have hp := h0 p hr
    refine ⟨by simp [IsBoundless, hp], hp, ?_⟩
    intro t
    obtain ⟨out, hE, _⟩ := enqueue_spec p t (by simp [isFull, hp])
    exact ⟨_, hE⟩
  · intro hc
    have hcap : (NewPriorityQueue c compare).capacity = c := by
      simp only [NewPriorityQueue]; rw [if_neg (by omega)]
    exact ⟨by simp [IsBoundless, hcap]; omega, hcap⟩

theorem capacity_selects_mode_witness :
    (0 : Int) ≤ 0 ∧
    ((NewPriorityQueue 0 intCompare).IsBoundless = true ∧
      (NewPriorityQueue 0 intCompare).Cap = 0 ∧
      ∀ p, Reachable 0 intCompare p →
        p.IsBoundless = true ∧ p.Cap = 0 ∧ ∀ t, ∃ p', p.Enqueue t = .ok (none, p')) :=
  ⟨by decide, (capacity_selects_mode 0 intCompare).1 (by decide)⟩

/-- Claim C1, evaluated on an unbounded heap (capacity 0) and the one-item
list `[7]`: the single `Enqueue` returns nil and the heap then stores exactly
`[7]`, yet the `Dequeue` that should drain it returns the zero value with
`ErrEmptyQueue`, because `isEmpty` tests the capacity field. -/
theorem unbounded_drain_fails :
    ∃ p q, enqueueAll (NewPriorityQueue 0 intCompare) [7] = .ok ([none], p) ∧
      p.items = [7] ∧ p.Len = 1 ∧
      dequeueN p 1 = .ok ([(0, some .ErrEmptyQueue)], q) :=
  ⟨_, _, rfl, rfl, rfl, rfl⟩

/-- Claim C4, evaluated at two heaps: on the empty heap of capacity 2 `Peek`
does not return `ErrEmptyQueue` but indexes `data[1]` out of range, and on the
unbounded heap holding the one item `7` `Peek` returns `ErrEmptyQueue`. -/
theorem peek_emptiness_test_wrong :
    ((NewPriorityQueue 2 intCompare).Len = 0 ∧
      (NewPriorityQueue 2 intCompare).Peek = .error .indexOutOfRange) ∧
    ∃ p, (NewPriorityQueue 0 intCompare).Enqueue 7 = .ok (none, p) ∧ p.Len = 1 ∧
      p.Peek = .ok ((0, some .ErrEmptyQueue), p) :=
  ⟨⟨rfl, rfl⟩, _, rfl, rfl, rfl⟩

/-- Claim C5, evaluated at two heaps: on the empty heap of capacity 2
`Dequeue` does not return `ErrEmptyQueue` but indexes `data[1]` out of range,
and on the unbounded heap holding the one item `7` `Dequeue` returns
`ErrEmptyQueue` and no item. -/
theorem dequeue_emptiness_test_wrong :
    ((NewPriorityQueue 2 intCompare).Len = 0 ∧
      (NewPriorityQueue 2 intCompare).Dequeue = .error .indexOutOfRange) ∧
    ∃ p, (NewPriorityQueue 0 intCompare).Enqueue 7 = .ok (none, p) ∧ p.Len = 1 ∧
      p.Dequeue = .ok ((0, some .ErrEmptyQueue), p) :=
  ⟨⟨rfl, rfl⟩, _, rfl, rfl, rfl⟩

/-- Claim C8: on a heap of capacity 2 ordered by deadline, `Enqueue` of A
(100) and B (50) returns nil, `Enqueue` of C (10) returns `ErrOutOfCapacity`
and changes nothing, `Dequeue` returns B, `Enqueue` of C now returns nil, and
the next two `Dequeue` calls return C and then A, leaving the heap empty. -/
theorem capacity_two_scenario :
    ∃ p₁ p₂ p₃ p₄ p₅ p₆,
      (NewPriorityQueue 2 byDeadline).Enqueue jobA = .ok (none, p₁) ∧
      p₁.Enqueue jobB = .ok (none, p₂) ∧
      p₂.Enqueue jobC = .ok (some .ErrOutOfCapacity, p₂) ∧
      p₂.Dequeue = .ok ((jobB, none), p₃) ∧
      p₃.Enqueue jobC = .ok (none, p₄) ∧
      p₄.Dequeue = .ok ((jobC, none), p₅) ∧
      p₅.Dequeue = .ok ((jobA, none), p₆) ∧ p₆.Len = 0 :=
  ⟨_, _, _, _, _, _, rfl, rfl, rfl, rfl, rfl, rfl, rfl, rfl⟩

/-! ## Delay queue -/

theorem popAndReturn_returned [Inhabited T] {d d' : DelayQueue T} {v : T}
    (h : d.popAndReturn = (.returned v none, d')) : d.q.data[1]? = some v := by
  unfold DelayQueue.popAndReturn at h
  rcases dequeue_cases d.q with ⟨_, hD⟩ | ⟨_, _, hD⟩ | ⟨_, d0, x, rest, out, hdata, hD, _⟩
  · rw [hD] at h
    dsimp only at h
    split at h
    · cases h
    · simp at h
  · rw [hD] at h
    cases h
  · rw [hD] at h
    dsimp only at h
    split at h
    · cases h
    · simp only [Option.map_none', Prod.mk.injEq, DequeueOutcome.returned.injEq,
        and_true] at h
      rw [hdata, ← h.1]
      simp

/-- Claim C9: with a context that is already done, one run of
`DelayQueue.Enqueue` and of `DelayQueue.Dequeue` returns `ctx.Err()` at the
first `select`, in every state of the queue, also while another caller holds
the lock; the heap, both gates, the lock and the channels are unchanged, and
`Dequeue` returns the zero value as its item. -/
theorem cancelled_call_returns_immediately [Inhabited T] (d : DelayQueue T) (e : CtxErr)
    (t : T) (Delay : T → Int) (timer : Option Int) :
    d.enqueueIter (some e) t = (.returned (some (.ctx e)), d) ∧
    d.dequeueIter (some e) Delay timer = (.returned default (some (.ctx e)), d, timer) :=
  ⟨rfl, rfl⟩

/-- Claim C10: whenever `DelayQueue.Dequeue` returns an item with a nil error,
on the immediate path or on the timer path, the call took the free lock, the
item is the heap root `data[1]` that `Peek` returned in that critical section,
and the `Delay()` observed there for it was `≤ 0`. -/
theorem dequeue_never_early [Inhabited T] (d d' : DelayQueue T) (ctx : Option CtxErr)
    (Delay : T → Int) (timer timer' : Option Int) (v : T)
    (h : d.dequeueIter ctx Delay timer = (.returned v none, d', timer') ∨
      d.dequeueTimerFired Delay = (.returned v none, d')) :
    d.mutex = false ∧ d.q.data[1]? = some v ∧ d.q.Peek = .ok ((v, none), d.q) ∧
      Delay v ≤ 0 := by
  rcases h with h | h
  · unfold DelayQueue.dequeueIter at h
    cases ctx with
    | some e => simp at h
    | none =>
      dsimp only at h
      cases hm : d.mutex with
      | true => simp [hm] at h
      | false =>
        simp only [hm, Bool.false_eq_true, if_false] at h
        rcases peek_cases d.q with ⟨_, hP⟩ | ⟨_, _, hP⟩ | ⟨_, x, hx, hP⟩
        · rw [hP] at h
          simp [cond.signalCh, Unlock] at h
        · rw [hP] at h
          simp at h
        · rw [hP] at h
          dsimp only at h
          by_cases hdl : Delay x ≤ 0
          · rw [if_pos hdl] at h
            cases hr : @DelayQueue.popAndReturn T _
                { q := d.q, mutex := true, dequeueSignal := d.dequeueSignal,
                  enqueueSignal := d.enqueueSignal, chans := d.chans } with
            | mk o d2 =>
            rw [hr] at h
            simp only [Prod.mk.injEq] at h
            have hpop := hr
            rw [h.1] at hpop
            have hv := popAndReturn_returned hpop
            dsimp only at hv
            rw [hx] at hv
            cases hv
            exact ⟨rfl, hx, hP, hdl⟩
          · rw [if_neg hdl] at h
            simp [cond.signalCh, Unlock] at h
  · unfold DelayQueue.dequeueTimerFired at h
    cases hm : d.mutex with
    | true => simp [hm] at h
    | false =>
      simp only [hm, Bool.false_eq_true, if_false] at h
      rcases peek_cases d.q with ⟨_, hP⟩ | ⟨_, _, hP⟩ | ⟨_, x, hx, hP⟩
      · rw [hP] at h
        simp [Unlock] at h
      · rw [hP] at h
        simp at h
      · rw [hP] at h
        dsimp only at h
        by_cases hdl : Delay x ≤ 0
        · rw [if_neg (by simp; exact hdl)] at h
          have hv := popAndReturn_returned h
          dsimp only at hv
          rw [hx] at hv
          cases hv
          exact ⟨rfl, hx, hP, hdl⟩
        · rw [if_pos (Or.inr (by omega))] at h
          simp [Unlock] at h

theorem dequeue_never_early_witness :
    (readyQueue.dequeueIter none delayAt60 none = (.returned jobB none, readyQueueAfter, none) ∨
      readyQueue.dequeueTimerFired delayAt60 = (.returned jobB none, readyQueueAfter)) ∧
    (readyQueue.mutex = false ∧ readyQueue.q.data[1]? = some jobB ∧
      readyQueue.q.Peek = .ok ((jobB, none), readyQueue.q) ∧ delayAt60 jobB ≤ 0) :=
  ⟨Or.inl rfl,
    dequeue_never_early readyQueue readyQueueAfter none delayAt60 none none jobB (Or.inl rfl)⟩

/-! ## Sift-down choice, frame of Enqueue, invariants, gates and the lock -/

theorem heapifyLoop_eq_choice (compare : Comparator T) (fuel : Nat) (data : List T)
    (n i : Nat) :
    heapifyLoop compare (fuel + 1) data n i =
      match heapifyChoice compare data n i with
      | .error f => .error f
      | .ok minPos =>
        if minPos = i then .ok data
        else
          match swapAt data i minPos with
          | .ok data => heapifyLoop compare fuel data n minPos
          | .error f => .error f := by
  rw [heapifyLoop]
  unfold heapifyChoice
  dsimp only
  cases hA : idx data (i * 2) <;> cases hB : idx data i <;>
    cases hC : idx data (i * 2 + 1) <;>
    by_cases hl : i * 2 ≤ n <;> by_cases hr : i * 2 + 1 ≤ n <;>
    simp only [hl, hr, if_true, if_false]

/-- Claim C19: an `Enqueue(t)` that returns nil leaves `data` a permutation of
the old `data` with `t` appended; on a heap that has its reserved slot 0 the
slot is kept and the stored items are the old ones plus one `t`; `Len()` grows
by exactly 1, and `Cap()` and the comparator are unchanged. -/
theorem enqueue_adds_exactly_one (p p' : PriorityQueue T) (t : T)
    (h : p.Enqueue t = .ok (none, p')) :
    List.Perm p'.data (p.data ++ [t]) ∧
      (p.data ≠ [] → p'.data[0]? = p.data[0]? ∧ List.Perm p'.items (t :: p.items)) ∧
      p'.Len = p.Len + 1 ∧ p'.Cap = p.Cap ∧ p'.compare = p.compare := by
  rcases enqueue_cases p t with ⟨_, hE⟩ | ⟨_, out, hE, hlen, hperm, h0, _⟩
  · rw [hE] at h; cases h
  · rw [hE] at h
    cases h
    refine ⟨hperm, ?_, ?_, rfl, rfl⟩
    · intro hne
      have hpos : 0 < p.data.length := List.length_pos.mpr hne
      refine ⟨by show out[0]? = _; rw [h0, List.getElem?_append_left hpos], ?_⟩
      have ht := tail_perm_of_perm hperm h0
      show List.Perm out.tail (t :: p.data.tail)
      refine ht.trans ?_
      cases hd : p.data with
      | nil => exact absurd hd hne
      | cons a s =>
        simp only [List.cons_append, List.tail_cons]
        exact List.perm_append_singleton t s
    · show (out.length : Int) - 1 = (p.data.length : Int) - 1 + 1
      rw [hlen]; push_cast; omega

theorem enqueue_adds_exactly_one_witness :
    PriorityQueue.Enqueue ⟨2, [0, 3], intCompare⟩ 1 = .ok (none, ⟨2, [0, 1, 3], intCompare⟩) ∧
    (List.Perm [0, 1, 3] (([0, 3] : List Int) ++ [1]) ∧
      (([0, 3] : List Int) ≠ [] → ([0, 1, 3] : List Int)[0]? = ([0, 3] : List Int)[0]? ∧
        List.Perm (items ⟨2, [0, 1, 3], intCompare⟩) (1 :: items ⟨2, [0, 3], intCompare⟩)) ∧
      Len ⟨2, [0, 1, 3], intCompare⟩ = Len ⟨2, [0, 3], intCompare⟩ + 1 ∧
      Cap ⟨2, [0, 1, 3], intCompare⟩ = Cap ⟨2, [0, 3], intCompare⟩ ∧
      intCompare = intCompare) :=
  ⟨rfl, enqueue_adds_exactly_one ⟨2, [0, 3], intCompare⟩ ⟨2, [0, 1, 3], intCompare⟩ 1 rfl⟩

/-- Claim C14: for a comparator that is a total preorder, the min-heap
property `compare(data[i/2], data[i]) ≤ 0` for every index `i ≥ 2` holds for
the heap `NewPriorityQueue` returns, is kept by every `Enqueue`, `Dequeue` and
`Peek` call that returns, and so holds for every reachable heap. -/
theorem heap_invariant_preserved [Inhabited T] (compare : Comparator T)
    (hc : TotalPreorder compare) :
    (∀ c, HeapInv compare (NewPriorityQueue c compare).data) ∧
    (∀ p : PriorityQueue T, p.compare = compare → HeapInv compare p.data →
      (∀ t e p', p.Enqueue t = .ok (e, p') → HeapInv compare p'.data) ∧
      (∀ r p', p.Dequeue = .ok (r, p') → HeapInv compare p'.data) ∧
      (∀ r p', p.Peek = .ok (r, p') → HeapInv compare p'.data)) ∧
    (∀ c p, Reachable c compare p → HeapInv compare p.data) := by
  refine ⟨fun c => (good_new c compare).heap hc, ?_, fun c p hr => (good_of_reachable hr).heap hc⟩
  intro p hcmp hinv
  subst hcmp
  refine ⟨?_, ?_, ?_⟩
  · intro t e p' h
    rcases enqueue_cases p t with ⟨_, hE⟩ | ⟨_, out, hE, _, _, _, hheap⟩
    · rw [hE] at h; cases h; exact hinv
    · rw [hE] at h; cases h; exact hheap hc hinv
  · intro r p' h
    rcases dequeue_cases p with ⟨_, hD⟩ | ⟨_, _, hD⟩ | ⟨_, d0, x, rest, out, _, hD, _, _, _, hheap⟩
    · rw [hD] at h; cases h; exact hinv
    · rw [hD] at h; cases h
    · rw [hD] at h; cases h; exact hheap hc hinv
  · intro r p' h
    rcases peek_cases p with ⟨_, hP⟩ | ⟨_, _, hP⟩ | ⟨_, x, _, hP⟩
    · rw [hP] at h; cases h; exact hinv
    · rw [hP] at h; cases h
    · rw [hP] at h; cases h; exact hinv

theorem TotalPreorder.lt_of_lt_of_lt {compare : Comparator T} (hc : TotalPreorder compare)
    {a b c : T} (h1 : compare a b < 0) (h2 : compare b c < 0) : compare a c < 0 := by
  by_contra hn
  have h3 : compare c a ≤ 0 := hc.le_of_not_lt hn
  have h4 : compare c b ≤ 0 := hc.trans _ _ _ h3 (by omega)
  have h5 : 0 < compare c b := (hc.flip b c).1 h2
  omega

theorem TotalPreorder.lt_of_lt_of_not_lt {compare : Comparator T} (hc : TotalPreorder compare)
    {a b c : T} (h1 : compare a b < 0) (h2 : ¬ compare c b < 0) : compare a c < 0 := by
  by_contra hn
  have h3 : compare c a ≤ 0 := hc.le_of_not_lt hn
  have h4 : compare c b ≤ 0 := hc.trans _ _ _ h3 (by omega)
  have h5 : compare b c ≤ 0 := hc.le_of_not_lt h2
  have h6 : compare b a ≤ 0 := hc.trans _ _ _ h5 h3
  have h7 : 0 < compare b a := (hc.flip a b).1 h1
  omega

/-- Claim C18: at a node with two children, one iteration of `heapify` with a
comparator that is a total preorder ends with `minPos` at the node, and stops
without a swap, exactly when neither child compares `< 0` with the node; it
picks the right child exactly when that child compares `< 0` with the node and
with the left child, and the left child otherwise, which then compares `≤` the
right one; in particular children that compare equal give the left child. The
loop goes on with the node and `minPos` swapped. -/
theorem sift_down_prefers_left (compare : Comparator T) (fuel : Nat) (data : List T)
    (n i : Nat) (b l r : T) (hc : TotalPreorder compare) (hi : 1 ≤ i)
    (hn : i * 2 + 1 ≤ n) (hb : data[i]? = some b) (hl : data[i * 2]? = some l)
    (hr : data[i * 2 + 1]? = some r) :
    ∃ m, heapifyChoice compare data n i = .ok m ∧
      (m = i → heapifyLoop compare (fuel + 1) data n i = .ok data) ∧
      (m ≠ i → ∃ out, swapAt data i m = .ok out ∧
        heapifyLoop compare (fuel + 1) data n i = heapifyLoop compare fuel out n m) ∧
      (m = i ∨ m = i * 2 ∨ m = i * 2 + 1) ∧
      (m = i ↔ ¬ compare l b < 0 ∧ ¬ compare r b < 0) ∧
      (m = i * 2 ↔ compare l b < 0 ∧ ¬ compare r l < 0) ∧
      (m = i * 2 + 1 ↔ compare r b < 0 ∧ compare r l < 0) ∧
      (m = i * 2 → compare l r ≤ 0) ∧
      (compare l b < 0 → compare l r = 0 → m = i * 2) := by
  have hln : i * 2 ≤ n := by omega
  have e1 : ¬ (i * 2 = i) := by omega
  have e2 : ¬ (i * 2 + 1 = i) := by omega
  have e3 : ¬ (i * 2 + 1 = i * 2) := by omega
  have e4 : ¬ (i = i * 2) := by omega
  have e5 : ¬ (i = i * 2 + 1) := by omega
  have e6 : ¬ (i * 2 = i * 2 + 1) := by omega
  have link := heapifyLoop_eq_choice compare fuel data n i
  by_cases hlb : compare l b < 0
  · by_cases hrl : compare r l < 0
    · have hch : heapifyChoice compare data n i = .ok (i * 2 + 1) := by
        simp [heapifyChoice, idx, hln, hn, hb, hl, hr, hlb, hrl]
      have hrb : compare r b < 0 := hc.lt_of_lt_of_lt hrl hlb
      refine ⟨i * 2 + 1, hch, fun h => absurd h e2, ?_, Or.inr (Or.inr rfl), ?_, ?_, ?_, ?_, ?_⟩
      · intro _
        refine ⟨_, by simp [swapAt, idx, hb, hr]; rfl, ?_⟩
        rw [link, hch]
        simp [swapAt, idx, hb, hr, e2]
      · exact ⟨fun h => absurd h e2, fun h => absurd hlb h.1⟩
      · exact ⟨fun h => absurd h e3, fun h => absurd hrl h.2⟩
      · exact ⟨fun _ => ⟨hrb, hrl⟩, fun _ => rfl⟩
      · intro h; exact absurd h e3
      · intro _ h0
        have : 0 < compare l r := (hc.flip r l).1 hrl
        omega
    · have hch : heapifyChoice compare data n i = .ok (i * 2) := by
        simp [heapifyChoice, idx, hln, hn, hb, hl, hr, hlb, hrl]
      refine ⟨i * 2, hch, fun h => absurd h e1, ?_, Or.inr (Or.inl rfl), ?_, ?_, ?_, ?_, ?_⟩
      · intro _
        refine ⟨_, by simp [swapAt, idx, hb, hl]; rfl, ?_⟩
        rw [link, hch]
        simp [swapAt, idx, hb, hl, e1]
      · exact ⟨fun h => absurd h e1, fun h => absurd hlb h.1⟩
      · exact ⟨fun _ => ⟨hlb, hrl⟩, fun _ => rfl⟩
      · exact ⟨fun h => absurd h e6, fun h => absurd h.2 hrl⟩
      · intro _; exact hc.le_of_not_lt hrl
      · intro _ _; rfl
  · by_cases hrb : compare r b < 0
    · have hch : heapifyChoice compare data n i = .ok (i * 2 + 1) := by
        simp [heapifyChoice, idx, hln, hn, hb, hl, hr, hlb, hrb]
      have hrl : compare r l < 0 := hc.lt_of_lt_of_not_lt hrb hlb
      refine ⟨i * 2 + 1, hch, fun h => absurd h e2, ?_, Or.inr (Or.inr rfl), ?_, ?_, ?_, ?_, ?_⟩
      · intro _
        refine ⟨_, by simp [swapAt, idx, hb, hr]; rfl, ?_⟩
        rw [link, hch]
        simp [swapAt, idx, hb, hr, e2]
      · exact ⟨fun h => absurd h e2, fun h => absurd hrb h.2⟩
      · exact ⟨fun h => absurd h e3, fun h => absurd h.1 hlb⟩
      · exact ⟨fun _ => ⟨hrb, hrl⟩, fun _ => rfl⟩
      · intro h; exact absurd h e3
      · intro h; exact absurd h hlb
    · have hch : heapifyChoice compare data n i = .ok i := by
        simp [heapifyChoice, idx, hln, hn, hb, hl, hr, hlb, hrb]
      refine ⟨i, hch, ?_, fun h => absurd rfl h, Or.inl rfl, ?_, ?_, ?_, ?_, ?_⟩
      · intro _
        rw [link, hch]
        simp
      · exact ⟨fun _ => ⟨hlb, hrb⟩, fun _ => rfl⟩
      · exact ⟨fun h => absurd h e4, fun h => absurd h.1 hlb⟩
      · exact ⟨fun h => absurd h e5, fun h => absurd h.1 hrb⟩
      · intro h; exact absurd h e4
      · intro h; exact absurd h hlb

theorem sift_down_prefers_left_witness :
    TotalPreorder intCompare ∧ 1 ≤ 1 ∧ 1 * 2 + 1 ≤ 3 ∧
    ([0, 5, 3, 3] : List Int)[1]? = some 5 ∧ ([0, 5, 3, 3] : List Int)[1 * 2]? = some 3 ∧
    ([0, 5, 3, 3] : List Int)[1 * 2 + 1]? = some 3 ∧
    ∃ m, heapifyChoice intCompare [0, 5, 3, 3] 3 1 = .ok m ∧ m = 1 * 2 ∧
      ∃ out, swapAt [0, 5, 3, 3] 1 m = .ok out ∧
        heapifyLoop intCompare (3 + 1) [0, 5, 3, 3] 3 1 = heapifyLoop intCompare 3 out 3 m := by
  refine ⟨intCompare_totalPreorder, by decide, by decide, rfl, rfl, rfl, ?_⟩
  obtain ⟨m, hch, _, hswap, _, _, _, _, _, htie⟩ :=
    sift_down_prefers_left intCompare 3 [0, 5, 3, 3] 3 1 5 3 3 intCompare_totalPreorder
      (by decide) (by decide) rfl rfl rfl
  have hm : m = 1 * 2 := htie (by decide) (by decide)
  exact ⟨m, hch, hm, hswap (by omega)⟩

theorem popAndReturn_after_peek [Inhabited T] {d d' : DelayQueue T} {x v : T}
    {err : Option CallError} (h : d.popAndReturn = (.returned v err, d'))
    (hx : d.q.data[1]? = some x) (hne : d.q.isEmpty = false) : err = none ∧ v = x := by
  unfold DelayQueue.popAndReturn at h
  rcases dequeue_cases d.q with ⟨he, _⟩ | ⟨_, hl, _⟩ | ⟨_, d0, y, rest, out, hdata, hD, _⟩
  · rw [hne] at he; cases he
  · have := lt_of_getElem?_some hx
    omega
  · rw [hD] at h
    dsimp only at h
    split at h
    · cases h
    · simp only [Option.map_none', Prod.mk.injEq, DequeueOutcome.returned.injEq] at h
      rw [hdata] at hx
      simp at hx
      exact ⟨h.1.2.symm, by rw [← h.1.1, hx]⟩

/-- Claim C20: when a run of `DelayQueue.Dequeue` returns, on the immediate
path or on the timer path, the error is never an error of the heap: it is nil,
or `ctx.Err()` with the zero value when the context was done at the first
`select`; and whenever `Peek` succeeds on the heap, `Dequeue` on the same heap
returns the same item with a nil error. -/
theorem pop_never_returns_heap_error [Inhabited T] (d d' : DelayQueue T)
    (ctx : Option CtxErr) (Delay : T → Int) (timer timer' : Option Int) (v : T)
    (err : Option CallError)
    (h : d.dequeueIter ctx Delay timer = (.returned v err, d', timer') ∨
      d.dequeueTimerFired Delay = (.returned v err, d')) :
    (∀ e, err ≠ some (.heap e)) ∧
      (err = none ∨ ∃ e, ctx = some e ∧ err = some (.ctx e) ∧ v = default) ∧
      (∀ x q, d.q.Peek = .ok ((x, none), q) → ∃ q', d.q.Dequeue = .ok ((x, none), q')) := by
  have key : err = none ∨ ∃ e, ctx = some e ∧ err = some (.ctx e) ∧ v = default := by
    rcases h with h | h
    · unfold DelayQueue.dequeueIter at h
      cases ctx with
      | some e =>
        simp only [Prod.mk.injEq, DequeueOutcome.returned.injEq] at h
        exact Or.inr ⟨e, rfl, h.1.2.symm, h.1.1.symm⟩
      | none =>
        left
        dsimp only at h
        cases hm : d.mutex with
        | true => simp [hm] at h
        | false =>
          simp only [hm, Bool.false_eq_true, if_false] at h
          rcases peek_cases d.q with ⟨_, hP⟩ | ⟨_, _, hP⟩ | ⟨hne, x, hx, hP⟩
          · rw [hP] at h
            simp [cond.signalCh, Unlock] at h
          · rw [hP] at h
            simp at h
          · rw [hP] at h
            dsimp only at h
            by_cases hdl : Delay x ≤ 0
            · rw [if_pos hdl] at h
              cases hr : @DelayQueue.popAndReturn T _
                  { q := d.q, mutex := true, dequeueSignal := d.dequeueSignal,
                    enqueueSignal := d.enqueueSignal, chans := d.chans } with
              | mk o d2 =>
              rw [hr] at h
              simp only [Prod.mk.injEq] at h
              rw [h.1] at hr
              exact (popAndReturn_after_peek hr hx hne).1
            · rw [if_neg hdl] at h
              simp [cond.signalCh, Unlock] at h
    · left
      unfold DelayQueue.dequeueTimerFired at h
      cases hm : d.mutex with
      | true => simp [hm] at h
      | false =>
        simp only [hm, Bool.false_eq_true, if_false] at h
        rcases peek_cases d.q with ⟨_, hP⟩ | ⟨_, _, hP⟩ | ⟨hne, x, hx, hP⟩
        · rw [hP] at h
          simp [Unlock] at h
        · rw [hP] at h
          simp at h
        · rw [hP] at h
          dsimp only at h
          by_cases hdl : Delay x ≤ 0
          · rw [if_neg (by simp; exact hdl)] at h
            exact (popAndReturn_after_peek h hx hne).1
          · rw [if_pos (Or.inr (by omega))] at h
            simp [Unlock] at h
  refine ⟨?_, key, ?_⟩
  · intro e he
    rcases key with hk | ⟨e', _, hk, _⟩
    · rw [hk] at he; cases he
    · rw [hk] at he; cases he
  · intro x q hP
    rcases peek_cases d.q with ⟨_, hP'⟩ | ⟨_, _, hP'⟩ | ⟨hne, z, hz, hP'⟩
    · rw [hP'] at hP; cases hP
    · rw [hP'] at hP; cases hP
    · rw [hP'] at hP
      cases hP
      rcases dequeue_cases d.q with ⟨he, _⟩ | ⟨_, hl, _⟩ | ⟨_, d0, w, rest, out, hdata, hD, _⟩
      · rw [hne] at he; cases he
      · have := lt_of_getElem?_some hz
        omega
      · rw [hdata] at hz
        simp at hz
        subst hz
        exact ⟨_, hD⟩

theorem pop_never_returns_heap_error_witness :
    (readyQueue.dequeueIter none delayAt60 none = (.returned jobB none, readyQueueAfter, none) ∨
      readyQueue.dequeueTimerFired delayAt60 = (.returned jobB none, readyQueueAfter)) ∧
    ((∀ e, (none : Option CallError) ≠ some (.heap e)) ∧
      ((none : Option CallError) = none ∨
        ∃ e, (none : Option CtxErr) = some e ∧ (none : Option CallError) = some (.ctx e) ∧
          jobB = default) ∧
      (∀ x q, readyQueue.q.Peek = .ok ((x, none), q) →
        ∃ q', readyQueue.q.Dequeue = .ok ((x, none), q'))) :=
  ⟨Or.inl rfl,
    pop_never_returns_heap_error readyQueue readyQueueAfter none delayAt60 none none jobB none
      (Or.inl rfl)⟩

/-- Claim C11, evaluated on an unbounded delay queue: `Enqueue` of the item C
returns nil and the heap then stores exactly C, whose delay is `≤ 0`; one run
of `Dequeue` with a context that is not done does not return C but suspends
on the enqueue gate, because `Peek` answers `ErrEmptyQueue` for every heap of
capacity below 2. -/
theorem unbounded_ready_item_not_returned :
    (NewDelayQueue 0 byDeadline).enqueueIter none jobC = (.returned none, unboundedQueue) ∧
    unboundedQueue.q.items = [jobC] ∧ unboundedQueue.q.Len = 1 ∧ delayAt60 jobC ≤ 0 ∧
    unboundedQueue.dequeueIter none delayAt60 none =
      (.waitEnqueue 2, unboundedQueue, none) :=
  ⟨rfl, rfl, rfl, by decide, rfl⟩

/-- Claim C12, evaluated on the empty delay queue of capacity 2: one run of
`Dequeue` with a context that is not done takes the lock and then indexes
`data[1]` out of range inside `Peek`; it reaches no `select`, and the lock
stays held. -/
theorem empty_queue_dequeue_panics :
    (NewDelayQueue 2 byDeadline).q.Len = 0 ∧ (NewDelayQueue 2 byDeadline).mutex = false ∧
    (NewDelayQueue 2 byDeadline).dequeueIter none delayAt60 none =
      (.crashed .indexOutOfRange,
        { q := NewPriorityQueue 2 byDeadline, mutex := true, dequeueSignal := ⟨0⟩,
          enqueueSignal := ⟨1⟩, chans := ⟨[], 2⟩ }, none) :=
  ⟨rfl, rfl, rfl⟩

theorem broadcast_held (c : cond) (h : Chans) :
    c.broadcast true h =
      if c.signal ∈ h.closed then .error .closeOfClosedChannel
      else .ok (⟨h.fresh⟩, false, ⟨c.signal :: h.closed, h.fresh + 1⟩) := by
  simp [cond.broadcast, Unlock]

theorem signalCh_held (c : cond) : c.signalCh true = .ok (c.signal, false) := by
  simp [cond.signalCh, Unlock]

theorem enqueueIter_locked (d : DelayQueue T) (t : T) (h : d.mutex = true) :
    d.enqueueIter none t = (.blockedOnLock, d) := by
  simp [DelayQueue.enqueueIter, h]

/-- What one run of the loop body of `DelayQueue.Enqueue` does when the lock
is free and the context is not done. -/
theorem enqueueIter_free (d : DelayQueue T) (t : T) (h : d.mutex = false) :
    (d.q.isFull = true ∧
      d.enqueueIter none t = (.waitSpace d.dequeueSignal.signal, d)) ∨
    (d.q.isFull = false ∧ ∃ q', d.q.Enqueue t = .ok (none, q') ∧
      ((d.enqueueSignal.signal ∈ d.chans.closed ∧
          d.enqueueIter none t = (.crashed .closeOfClosedChannel,
            { d with mutex := true, q := q' })) ∨
        (d.enqueueSignal.signal ∉ d.chans.closed ∧
          d.enqueueIter none t = (.returned none,
            { d with q := q', enqueueSignal := ⟨d.chans.fresh⟩,
                     chans := ⟨d.enqueueSignal.signal :: d.chans.closed,
                       d.chans.fresh + 1⟩ })))) := by
  rcases d with ⟨q, m, ds, es, ch⟩
  simp only at h
  subst h
  rcases enqueue_cases q t with ⟨hf, hE⟩ | ⟨hf, out, hE, _⟩
  · left
    refine ⟨hf, ?_⟩
    simp [DelayQueue.enqueueIter, hE, signalCh_held]
  · right
    refine ⟨hf, _, hE, ?_⟩
    by_cases hc : es.signal ∈ ch.closed
    · left
      refine ⟨hc, ?_⟩
      simp [DelayQueue.enqueueIter, hE, broadcast_held, hc]
    · right
      refine ⟨hc, ?_⟩
      simp [DelayQueue.enqueueIter, hE, broadcast_held, hc]

/-- Claim C13: on a delay queue whose lock is free and whose gates are in
order, one run of `Enqueue` with a context that is not done does the
following. When the heap is bounded and at capacity it returns nothing and
leaves every field as it was (nothing inserted, enqueue gate not fired, lock
released), waiting on the current, open handle of the dequeue gate until the
context is done (then it returns `ctx.Err()`) or the handle is closed (then
the loop starts over). Otherwise it inserts the item, closes the current
handle of the enqueue gate, installs a fresh open one and returns nil. -/
theorem enqueue_full_waits_else_inserts (d : DelayQueue T) (t : T)
    (hfree : d.mutex = false) (hg : d.GatesOk) :
    (0 < d.q.Cap ∧ d.q.Len = d.q.Cap →
      d.enqueueIter none t = (.waitSpace d.dequeueSignal.signal, d) ∧
      d.dequeueSignal.signal ∉ d.chans.closed ∧
      (∀ e, d.enqueueWake (some e) = (.returned (some (.ctx e)), d)) ∧
      d.enqueueWake none = (.retry, d)) ∧
    (¬ (0 < d.q.Cap ∧ d.q.Len = d.q.Cap) →
      ∃ q', d.q.Enqueue t = .ok (none, q') ∧ List.Perm q'.data (d.q.data ++ [t]) ∧
        q'.Len = d.q.Len + 1 ∧
        d.enqueueIter none t = (.returned none,
          { d with q := q', enqueueSignal := ⟨d.chans.fresh⟩,
                   chans := ⟨d.enqueueSignal.signal :: d.chans.closed,
                     d.chans.fresh + 1⟩ }) ∧
        d.enqueueSignal.signal ∈ d.enqueueSignal.signal :: d.chans.closed ∧
        d.chans.fresh ∉ d.enqueueSignal.signal :: d.chans.closed) := by
  have hfull : d.q.isFull = true ↔ (0 < d.q.Cap ∧ d.q.Len = d.q.Cap) := by
    simp [isFull, Cap, Len]
  constructor
  · intro hcap
    rcases enqueueIter_free d t hfree with ⟨_, hI⟩ | ⟨hf, _⟩
    · exact ⟨hI, hg.deqOpen, fun e => rfl, rfl⟩
    · rw [hfull.mpr hcap] at hf; cases hf
  · intro hcap
    rcases enqueueIter_free d t hfree with ⟨hf, _⟩ | ⟨_, q', hE, hI⟩
    · exact absurd (hfull.mp hf) hcap
    · rcases hI with ⟨hc, _⟩ | ⟨_, hI⟩
      · exact absurd hc hg.enqOpen
      · have hq : List.Perm q'.data (d.q.data ++ [t]) ∧ q'.Len = d.q.Len + 1 := by
          rcases enqueue_cases d.q t with ⟨_, hE'⟩ | ⟨_, out, hE', hlen, hperm, _⟩
          · rw [hE'] at hE; cases hE
          · rw [hE'] at hE
            cases hE
            refine ⟨hperm, ?_⟩
            show (out.length : Int) - 1 = (d.q.data.length : Int) - 1 + 1
            rw [hlen]; push_cast; omega
        refine ⟨q', hE, hq.1, hq.2, hI, List.mem_cons_self _ _, ?_⟩
        intro hmem
        rcases List.mem_cons.mp hmem with h1 | h1
        · exact absurd h1 (Nat.ne_of_gt hg.enqOld)
        · exact Nat.lt_irrefl _ (hg.closedOld _ h1)

/-- What the statements that pop and return do when run with the lock held on
a heap whose `Peek` has just succeeded. -/
theorem popAndReturn_held [Inhabited T] (d : DelayQueue T) (x : T)
    (hm : d.mutex = true) (hx : d.q.data[1]? = some x) (hne : d.q.isEmpty = false) :
    ∃ q', d.q.Dequeue = .ok ((x, none), q') ∧
      ((d.dequeueSignal.signal ∈ d.chans.closed ∧
          d.popAndReturn = (.crashed .closeOfClosedChannel, { d with q := q' })) ∨
        (d.dequeueSignal.signal ∉ d.chans.closed ∧
          d.popAndReturn = (.returned x none,
            { d with q := q', mutex := false, dequeueSignal := ⟨d.chans.fresh⟩,
                     chans := ⟨d.dequeueSignal.signal :: d.chans.closed,
                       d.chans.fresh + 1⟩ }))) := by
  rcases d with ⟨q, m, ds, es, ch⟩
  simp only at hm hx hne
  subst hm
  rcases dequeue_cases q with ⟨he, _⟩ | ⟨_, hl, _⟩ | ⟨_, d0, y, rest, out, hdata, hD, _⟩
  · rw [hne] at he; cases he
  · have := lt_of_getElem?_some hx
    omega
  · have hy : y = x := by
      rw [hdata] at hx
      simpa using hx
    subst hy
    refine ⟨_, hD, ?_⟩
    by_cases hc : ds.signal ∈ ch.closed
    · left
      refine ⟨hc, ?_⟩
      simp [DelayQueue.popAndReturn, hD, broadcast_held, hc]
    · right
      refine ⟨hc, ?_⟩
      simp [DelayQueue.popAndReturn, hD, broadcast_held, hc]

/-- What one run of the loop body of `DelayQueue.Dequeue` does when the lock
is free and the context is not done. -/
theorem dequeueIter_free [Inhabited T] (d : DelayQueue T) (Delay : T → Int)
    (timer : Option Int) (h : d.mutex = false) :
    (d.q.isEmpty = true ∧
      d.dequeueIter none Delay timer = (.waitEnqueue d.enqueueSignal.signal, d, timer)) ∨
    (d.q.isEmpty = false ∧ d.q.data.length < 2 ∧
      d.dequeueIter none Delay timer =
        (.crashed .indexOutOfRange, { d with mutex := true }, timer)) ∨
    (d.q.isEmpty = false ∧ ∃ x, d.q.data[1]? = some x ∧
      ((0 < Delay x ∧
          d.dequeueIter none Delay timer =
            (.waitReady d.dequeueSignal.signal, d, some (Delay x))) ∨
        (Delay x ≤ 0 ∧
          d.dequeueIter none Delay timer =
            ((DelayQueue.popAndReturn { d with mutex := true }).1,
              (DelayQueue.popAndReturn { d with mutex := true }).2, timer)))) := by
  rcases d with ⟨q, m, ds, es, ch⟩
  simp only at h
  subst h
  rcases peek_cases q with ⟨he, hP⟩ | ⟨he, hl, hP⟩ | ⟨he, x, hx, hP⟩
  · left
    refine ⟨he, ?_⟩
    simp [DelayQueue.dequeueIter, hP, signalCh_held]
  · right; left
    refine ⟨he, hl, ?_⟩
    simp [DelayQueue.dequeueIter, hP]
  · right; right
    refine ⟨he, x, hx, ?_⟩
    by_cases hd : Delay x ≤ 0
    · right
      refine ⟨hd, ?_⟩
      simp [DelayQueue.dequeueIter, hP, hd]
    · left
      refine ⟨by omega, ?_⟩
      simp [DelayQueue.dequeueIter, hP, hd, signalCh_held]

/-- What the timer branch of `DelayQueue.Dequeue` does when the lock is free. -/
theorem dequeueTimerFired_free [Inhabited T] (d : DelayQueue T) (Delay : T → Int)
    (h : d.mutex = false) :
    (d.q.isEmpty = true ∧ d.dequeueTimerFired Delay = (.retry, d)) ∨
    (d.q.isEmpty = false ∧ d.q.data.length < 2 ∧
      d.dequeueTimerFired Delay = (.crashed .indexOutOfRange, { d with mutex := true })) ∨
    (d.q.isEmpty = false ∧ ∃ x, d.q.data[1]? = some x ∧
      ((0 < Delay x ∧ d.dequeueTimerFired Delay = (.retry, d)) ∨
        (Delay x ≤ 0 ∧
          d.dequeueTimerFired Delay = DelayQueue.popAndReturn { d with mutex := true }))) := by
  rcases d with ⟨q, m, ds, es, ch⟩
  simp only at h
  subst h
  rcases peek_cases q with ⟨he, hP⟩ | ⟨he, hl, hP⟩ | ⟨he, x, hx, hP⟩
  · left
    refine ⟨he, ?_⟩
    simp [DelayQueue.dequeueTimerFired, hP, Unlock]
  · right; left
    refine ⟨he, hl, ?_⟩
    simp [DelayQueue.dequeueTimerFired, hP]
  · right; right
    refine ⟨he, x, hx, ?_⟩
    by_cases hd : Delay x ≤ 0
    · right
      refine ⟨hd, ?_⟩
      simp [DelayQueue.dequeueTimerFired, hP, hd]
    · left
      refine ⟨by omega, ?_⟩
      have hd' : 0 < Delay x := by omega
      simp [DelayQueue.dequeueTimerFired, hP, hd', Unlock]

theorem dequeueIter_locked [Inhabited T] (d : DelayQueue T) (Delay : T → Int)
    (timer : Option Int) (h : d.mutex = true) :
    d.dequeueIter none Delay timer = (.blockedOnLock, d, timer) := by
  simp [DelayQueue.dequeueIter, h]

theorem dequeueTimerFired_locked [Inhabited T] (d : DelayQueue T) (Delay : T → Int)
    (h : d.mutex = true) : d.dequeueTimerFired Delay = (.blockedOnLock, d) := by
  simp [DelayQueue.dequeueTimerFired, h]

theorem enqueueIter_lock (d : DelayQueue T) (ctx : Option CtxErr) (t : T) :
    (d.enqueueIter ctx t).1 ≠ .crashed .unlockOfUnlockedMutex ∧
    (d.mutex = true → (d.enqueueIter ctx t).2 = d) ∧
    (d.mutex = false → (d.enqueueIter ctx t).1.atWaitOrReturn = true →
      (d.enqueueIter ctx t).2.mutex = false) := by
  cases ctx with
  | some e => exact ⟨by simp [DelayQueue.enqueueIter], fun _ => rfl, fun h _ => h⟩
  | none =>
    by_cases hm : d.mutex = true
    · rw [enqueueIter_locked d t hm]
      exact ⟨by simp, fun _ => rfl, fun h => absurd hm (by simp [h])⟩
    · have hm : d.mutex = false := by simpa using hm
      rcases enqueueIter_free d t hm with ⟨_, hI⟩ | ⟨_, q', _, ⟨_, hI⟩ | ⟨_, hI⟩⟩ <;> rw [hI]
      · exact ⟨by simp, fun h => absurd h (by simp [hm]), fun _ _ => hm⟩
      · exact ⟨by simp, fun h => absurd h (by simp [hm]), fun _ h => absurd h (by simp [EnqueueOutcome.atWaitOrReturn, DequeueOutcome.atWaitOrReturn])⟩
      · exact ⟨by simp, fun h => absurd h (by simp [hm]), fun _ _ => hm⟩

theorem popAndReturn_lock [Inhabited T] (d : DelayQueue T) (x : T)
    (hx : d.q.data[1]? = some x) (hne : d.q.isEmpty = false) :
    (DelayQueue.popAndReturn { d with mutex := true }).1 ≠ .crashed .unlockOfUnlockedMutex ∧
    ((DelayQueue.popAndReturn { d with mutex := true }).1.atWaitOrReturn = true →
      (DelayQueue.popAndReturn { d with mutex := true }).2.mutex = false) := by
  obtain ⟨q', _, ⟨_, hP⟩ | ⟨_, hP⟩⟩ :=
    popAndReturn_held { d with mutex := true } x rfl hx hne <;> rw [hP]
  · exact ⟨by simp, fun h => absurd h (by simp [DequeueOutcome.atWaitOrReturn])⟩
  · exact ⟨by simp, fun _ => rfl⟩

theorem dequeueIter_lock [Inhabited T] (d : DelayQueue T) (ctx : Option CtxErr)
    (Delay : T → Int) (timer : Option Int) :
    (d.dequeueIter ctx Delay timer).1 ≠ .crashed .unlockOfUnlockedMutex ∧
    (d.mutex = true → (d.dequeueIter ctx Delay timer).2.1 = d) ∧
    (d.mutex = false → (d.dequeueIter ctx Delay timer).1.atWaitOrReturn = true →
      (d.dequeueIter ctx Delay timer).2.1.mutex = false) := by
  cases ctx with
  | some e => exact ⟨by simp [DelayQueue.dequeueIter], fun _ => rfl, fun h _ => h⟩
  | none =>
    by_cases hm : d.mutex = true
    · rw [dequeueIter_locked d Delay timer hm]
      exact ⟨by simp, fun _ => rfl, fun h => absurd hm (by simp [h])⟩
    · have hm : d.mutex = false := by simpa using hm
      rcases dequeueIter_free d Delay timer hm with ⟨_, hI⟩ | ⟨_, _, hI⟩ |
        ⟨hne, x, hx, ⟨_, hI⟩ | ⟨_, hI⟩⟩ <;> rw [hI]
      · exact ⟨by simp, fun h => absurd h (by simp [hm]), fun _ _ => hm⟩
      · exact ⟨by simp, fun h => absurd h (by simp [hm]), fun _ h => absurd h (by simp [EnqueueOutcome.atWaitOrReturn, DequeueOutcome.atWaitOrReturn])⟩
      · exact ⟨by simp, fun h => absurd h (by simp [hm]), fun _ _ => hm⟩
      · have hp := popAndReturn_lock d x hx hne
        exact ⟨hp.1, fun h => absurd h (by simp [hm]), fun _ => hp.2⟩

theorem dequeueTimerFired_lock [Inhabited T] (d : DelayQueue T) (Delay : T → Int) :
    (d.dequeueTimerFired Delay).1 ≠ .crashed .unlockOfUnlockedMutex ∧
    (d.mutex = true → (d.dequeueTimerFired Delay).2 = d) ∧
    (d.mutex = false → (d.dequeueTimerFired Delay).1.atWaitOrReturn = true →
      (d.dequeueTimerFired Delay).2.mutex = false) := by
  by_cases hm : d.mutex = true
  · rw [dequeueTimerFired_locked d Delay hm]
    exact ⟨by simp, fun _ => rfl, fun h => absurd hm (by simp [h])⟩
  · have hm : d.mutex = false := by simpa using hm
    rcases dequeueTimerFired_free d Delay hm with ⟨_, hI⟩ | ⟨_, _, hI⟩ |
      ⟨hne, x, hx, ⟨_, hI⟩ | ⟨_, hI⟩⟩ <;> rw [hI]
    · exact ⟨by simp, fun h => absurd h (by simp [hm]), fun _ _ => hm⟩
    · exact ⟨by simp, fun h => absurd h (by simp [hm]), fun _ h => absurd h (by simp [EnqueueOutcome.atWaitOrReturn, DequeueOutcome.atWaitOrReturn])⟩
    · exact ⟨by simp, fun h => absurd h (by simp [hm]), fun _ _ => hm⟩
    · have hp := popAndReturn_lock d x hx hne
      exact ⟨hp.1, fun h => absurd h (by simp [hm]), fun _ => hp.2⟩

/-- Lock discipline on the paths that reach a `select`, a return or a restart
of the loop, in each part of `DelayQueue.Enqueue` and `DelayQueue.Dequeue`:
the lock is never unlocked while not held; a lock that another caller holds at
entry is left untouched; and when the lock is free at entry, it is free again
at every `select`, return and restart. The paths that end in a panic are not
covered. -/
theorem lock_released_at_waits_and_returns [Inhabited T] (d : DelayQueue T)
    (ctx : Option CtxErr) (t : T) (Delay : T → Int) (timer : Option Int) (w : Wake) :
    ((d.enqueueIter ctx t).1 ≠ .crashed .unlockOfUnlockedMutex ∧
      (d.enqueueWake ctx).1 ≠ .crashed .unlockOfUnlockedMutex ∧
      (d.dequeueIter ctx Delay timer).1 ≠ .crashed .unlockOfUnlockedMutex ∧
      (d.dequeueWake w Delay).1 ≠ .crashed .unlockOfUnlockedMutex) ∧
    (d.mutex = true →
      (d.enqueueIter ctx t).2 = d ∧ (d.enqueueWake ctx).2 = d ∧
      (d.dequeueIter ctx Delay timer).2.1 = d ∧ (d.dequeueWake w Delay).2 = d) ∧
    (d.mutex = false →
      ((d.enqueueIter ctx t).1.atWaitOrReturn = true →
        (d.enqueueIter ctx t).2.mutex = false) ∧
      (d.enqueueWake ctx).2.mutex = false ∧
      ((d.dequeueIter ctx Delay timer).1.atWaitOrReturn = true →
        (d.dequeueIter ctx Delay timer).2.1.mutex = false) ∧
      ((d.dequeueWake w Delay).1.atWaitOrReturn = true →
        (d.dequeueWake w Delay).2.mutex = false)) := by
  have hE := enqueueIter_lock d ctx t
  have hD := dequeueIter_lock d ctx Delay timer
  have hT := dequeueTimerFired_lock d Delay
  have hEW : (d.enqueueWake ctx).1 ≠ .crashed .unlockOfUnlockedMutex ∧
      (d.enqueueWake ctx).2 = d := by
    cases ctx <;> simp [DelayQueue.enqueueWake]
  have hDW : (d.dequeueWake w Delay).1 ≠ .crashed .unlockOfUnlockedMutex ∧
      (d.mutex = true → (d.dequeueWake w Delay).2 = d) ∧
      (d.mutex = false → (d.dequeueWake w Delay).1.atWaitOrReturn = true →
        (d.dequeueWake w Delay).2.mutex = false) := by
    cases w with
    | cancelled e => exact ⟨by simp [DelayQueue.dequeueWake], fun _ => rfl, fun h _ => h⟩
    | timer => exact hT
    | signal => exact ⟨by simp [DelayQueue.dequeueWake], fun _ => rfl, fun h _ => h⟩
  refine ⟨⟨hE.1, hEW.1, hD.1, hDW.1⟩, ?_, ?_⟩
  · intro hm
    exact ⟨hE.2.1 hm, hEW.2, hD.2.1 hm, hDW.2.1 hm⟩
  · intro hm
    exact ⟨hE.2.2 hm, by rw [hEW.2]; exact hm, hD.2.2 hm, hDW.2.2 hm⟩

theorem gateInv_of_reachable {h₀ : Chans} (hold : ∀ x ∈ h₀.closed, x < h₀.fresh)
    (hnd : h₀.closed.Nodup) {c : cond} {h : Chans} {hist : List Chan}
    (hr : GateReachable h₀ c h hist) : GateInv c h hist := by
  induction hr with
  | init =>
    refine ⟨rfl, ?_, ?_, ?_, by simp, hnd⟩
    · intro hmem
      exact Nat.lt_irrefl _ (hold _ hmem)
    · intro x hx
      simp only [newCond, List.mem_singleton] at hx ⊢
      rw [hx]
      exact Nat.lt_succ_self _
    · intro x hx
      exact Nat.lt_succ_of_lt (hold x hx)
  | @broadcast c c' h h' hist l _ hb ih =>
    rw [broadcast_held, if_neg ih.isOpen] at hb
    simp only [Except.ok.injEq, Prod.mk.injEq] at hb
    obtain ⟨hc, _, hh⟩ := hb
    subst hc; subst hh
    have hfresh : h.fresh ∉ hist := fun hm => Nat.lt_irrefl _ (ih.histOld _ hm)
    have hcur : c.signal ∈ hist := by
      have := ih.current
      cases hist with
      | nil => simp at this
      | cons a s =>
        simp at this
        simp [this]
    refine ⟨rfl, ?_, ?_, ?_, List.nodup_cons.mpr ⟨hfresh, ih.histNodup⟩,
      List.nodup_cons.mpr ⟨ih.isOpen, ih.closedNodup⟩⟩
    · intro hm
      rcases List.mem_cons.mp hm with h1 | h1
      · exact hfresh (by simp only at h1; rw [h1]; exact hcur)
      · exact Nat.lt_irrefl _ (ih.closedOld _ h1)
    · intro x hx
      rcases List.mem_cons.mp hx with h1 | h1
      · rw [h1]
        exact Nat.lt_succ_self _
      · exact Nat.lt_succ_of_lt (ih.histOld x h1)
    · intro x hx
      rcases List.mem_cons.mp hx with h1 | h1
      · rw [h1]
        exact Nat.lt_succ_of_lt (ih.histOld _ hcur)
      · exact Nat.lt_succ_of_lt (ih.closedOld x h1)
  | signalCh _ _ ih => exact ih

/-- Claim C17: in every state of a gate reached from `newCond` by `broadcast`
and `signalCh` calls made with the lock held, the current handle is open, no
handle was installed twice and none closed twice; a `broadcast` succeeds,
closes exactly the current handle and installs a fresh handle that is open and
differs from every earlier one; `signalCh` returns the current, open handle. -/
theorem gate_handles (h₀ : Chans) (c : cond) (h : Chans) (hist : List Chan)
    (hold : ∀ x ∈ h₀.closed, x < h₀.fresh) (hnd : h₀.closed.Nodup)
    (hr : GateReachable h₀ c h hist) :
    (hist.head? = some c.signal ∧ c.signal ∉ h.closed ∧ hist.Nodup ∧ h.closed.Nodup) ∧
    (c.broadcast true h = .ok (⟨h.fresh⟩, false, ⟨c.signal :: h.closed, h.fresh + 1⟩) ∧
      h.fresh ∉ hist ∧ h.fresh ∉ c.signal :: h.closed ∧
      (c.signal :: h.closed).Nodup) ∧
    (c.signalCh true = .ok (c.signal, false)) := by
  have hi := gateInv_of_reachable hold hnd hr
  have hfresh : h.fresh ∉ hist := fun hm => Nat.lt_irrefl _ (hi.histOld _ hm)
  have hcur : c.signal ∈ hist := by
    have := hi.current
    cases hist with
    | nil => simp at this
    | cons a s =>
      simp at this
      simp [this]
  refine ⟨⟨hi.current, hi.isOpen, hi.histNodup, hi.closedNodup⟩, ⟨?_, hfresh, ?_, ?_⟩,
    signalCh_held c⟩
  · rw [broadcast_held, if_neg hi.isOpen]
  · intro hm
    rcases List.mem_cons.mp hm with h1 | h1
    · exact hfresh (by rw [h1]; exact hcur)
    · exact Nat.lt_irrefl _ (hi.closedOld _ h1)
  · exact List.nodup_cons.mpr ⟨hi.isOpen, hi.closedNodup⟩

theorem gate_handles_witness :
    (∀ x ∈ (⟨[], 0⟩ : Chans).closed, x < (⟨[], 0⟩ : Chans).fresh) ∧
    (⟨[], 0⟩ : Chans).closed.Nodup ∧ GateReachable ⟨[], 0⟩ ⟨1⟩ ⟨[0], 2⟩ [1, 0] ∧
    ((([1, 0] : List Chan).head? = some 1 ∧ (1 : Chan) ∉ ([0] : List Chan) ∧
        ([1, 0] : List Chan).Nodup ∧ ([0] : List Chan).Nodup) ∧
      (cond.broadcast ⟨1⟩ true ⟨[0], 2⟩ = .ok (⟨2⟩, false, ⟨1 :: [0], 2 + 1⟩) ∧
        (2 : Chan) ∉ ([1, 0] : List Chan) ∧ (2 : Chan) ∉ (1 : Chan) :: [0] ∧
        ((1 : Chan) :: [0]).Nodup) ∧
      cond.signalCh ⟨1⟩ true = .ok (1, false)) :=
  have hr : GateReachable ⟨[], 0⟩ ⟨1⟩ ⟨[0], 2⟩ [1, 0] :=
    GateReachable.broadcast GateReachable.init
      (show cond.broadcast ⟨0⟩ true ⟨[], 1⟩ = .ok (⟨1⟩, false, ⟨[0], 2⟩) from rfl)
  ⟨by decide, by decide, hr,
    gate_handles ⟨[], 0⟩ ⟨1⟩ ⟨[0], 2⟩ [1, 0] (by decide) (by decide) hr⟩

theorem gatesOk_new [Inhabited T] (capacity : Int) (compare : Comparator T) :
    (NewDelayQueue capacity compare).GatesOk :=
  ⟨by simp [NewDelayQueue, newCond], by simp [NewDelayQueue, newCond],
    by simp [NewDelayQueue, newCond], by simp [NewDelayQueue, newCond],
    by simp [NewDelayQueue, newCond], by simp [NewDelayQueue, newCond]⟩

/-- Firing the enqueue gate keeps the gates in order. -/
theorem gatesOk_fire_enqueue {d : DelayQueue T} (hg : d.GatesOk) (q : PriorityQueue T)
    (m : Bool) :
    DelayQueue.GatesOk
      { d with q := q, mutex := m, enqueueSignal := ⟨d.chans.fresh⟩,
               chans := ⟨d.enqueueSignal.signal :: d.chans.closed, d.chans.fresh + 1⟩ } := by
  refine ⟨?_, ?_, ?_, ?_, ?_, ?_⟩
  · intro hm
    rcases List.mem_cons.mp hm with h1 | h1
    · exact hg.distinct h1
    · exact hg.deqOpen h1
  · intro hm
    rcases List.mem_cons.mp hm with h1 | h1
    · exact absurd h1 (Nat.ne_of_gt hg.enqOld)
    · exact Nat.lt_irrefl _ (hg.closedOld _ h1)
  · exact Nat.ne_of_lt hg.deqOld
  · exact Nat.lt_succ_of_lt hg.deqOld
  · exact Nat.lt_succ_self _
  · intro x hx
    rcases List.mem_cons.mp hx with h1 | h1
    · rw [h1]; exact Nat.lt_succ_of_lt hg.enqOld
    · exact Nat.lt_succ_of_lt (hg.closedOld x h1)

/-- Firing the dequeue gate keeps the gates in order. -/
theorem gatesOk_fire_dequeue {d : DelayQueue T} (hg : d.GatesOk) (q : PriorityQueue T)
    (m : Bool) :
    DelayQueue.GatesOk
      { d with q := q, mutex := m, dequeueSignal := ⟨d.chans.fresh⟩,
               chans := ⟨d.dequeueSignal.signal :: d.chans.closed, d.chans.fresh + 1⟩ } := by
  refine ⟨?_, ?_, ?_, ?_, ?_, ?_⟩
  · intro hm
    rcases List.mem_cons.mp hm with h1 | h1
    · exact absurd h1 (Nat.ne_of_gt hg.deqOld)
    · exact Nat.lt_irrefl _ (hg.closedOld _ h1)
  · intro hm
    rcases List.mem_cons.mp hm with h1 | h1
    · exact hg.distinct h1.symm
    · exact hg.enqOpen h1
  · exact Nat.ne_of_gt hg.enqOld
  · exact Nat.lt_succ_self _
  · exact Nat.lt_succ_of_lt hg.enqOld
  · intro x hx
    rcases List.mem_cons.mp hx with h1 | h1
    · rw [h1]; exact Nat.lt_succ_of_lt hg.deqOld
    · exact Nat.lt_succ_of_lt (hg.closedOld x h1)

theorem gatesOk_congr {d d' : DelayQueue T} (hg : d.GatesOk)
    (h1 : d'.dequeueSignal = d.dequeueSignal) (h2 : d'.enqueueSignal = d.enqueueSignal)
    (h3 : d'.chans = d.chans) : d'.GatesOk :=
  ⟨by rw [h1, h3]; exact hg.deqOpen, by rw [h2, h3]; exact hg.enqOpen,
    by rw [h1, h2]; exact hg.distinct, by rw [h1, h3]; exact hg.deqOld,
    by rw [h2, h3]; exact hg.enqOld, by rw [h3]; exact hg.closedOld⟩

/-- Every run of the loop body of `DelayQueue.Enqueue` keeps the gates in order. -/
theorem gatesOk_enqueueIter (d : DelayQueue T) (ctx : Option CtxErr) (t : T)
    (hg : d.GatesOk) : (d.enqueueIter ctx t).2.GatesOk := by
  cases ctx with
  | some e => exact hg
  | none =>
    by_cases hm : d.mutex = true
    · rw [enqueueIter_locked d t hm]; exact hg
    · have hm : d.mutex = false := by simpa using hm
      rcases enqueueIter_free d t hm with ⟨_, hI⟩ | ⟨_, q', _, ⟨_, hI⟩ | ⟨_, hI⟩⟩ <;> rw [hI]
      · exact hg
      · exact gatesOk_congr hg rfl rfl rfl
      · have := gatesOk_fire_enqueue hg q' d.mutex
        exact gatesOk_congr this rfl rfl rfl

theorem gatesOk_popAndReturn [Inhabited T] (d : DelayQueue T) (x : T) (hg : d.GatesOk)
    (hx : d.q.data[1]? = some x) (hne : d.q.isEmpty = false) :
    (DelayQueue.popAndReturn { d with mutex := true }).2.GatesOk := by
  obtain ⟨q', _, ⟨_, hP⟩ | ⟨_, hP⟩⟩ :=
    popAndReturn_held { d with mutex := true } x rfl hx hne <;> rw [hP]
  · exact gatesOk_congr hg rfl rfl rfl
  · have := gatesOk_fire_dequeue hg q' false
    exact gatesOk_congr this rfl rfl rfl

/-- Every run of the loop body of `DelayQueue.Dequeue` keeps the gates in order. -/
theorem gatesOk_dequeueIter [Inhabited T] (d : DelayQueue T) (ctx : Option CtxErr)
    (Delay : T → Int) (timer : Option Int) (hg : d.GatesOk) :
    (d.dequeueIter ctx Delay timer).2.1.GatesOk := by
  cases ctx with
  | some e => exact hg
  | none =>
    by_cases hm : d.mutex = true
    · rw [dequeueIter_locked d Delay timer hm]; exact hg
    · have hm : d.mutex = false := by simpa using hm
      rcases dequeueIter_free d Delay timer hm with ⟨_, hI⟩ | ⟨_, _, hI⟩ |
        ⟨hne, x, hx, ⟨_, hI⟩ | ⟨_, hI⟩⟩ <;> rw [hI]
      · exact hg
      · exact gatesOk_congr hg rfl rfl rfl
      · exact hg
      · exact gatesOk_popAndReturn d x hg hx hne

/-- The timer branch of `DelayQueue.Dequeue` keeps the gates in order. -/
theorem gatesOk_dequeueTimerFired [Inhabited T] (d : DelayQueue T) (Delay : T → Int)
    (hg : d.GatesOk) : (d.dequeueTimerFired Delay).2.GatesOk := by
  by_cases hm : d.mutex = true
  · rw [dequeueTimerFired_locked d Delay hm]; exact hg
  · have hm : d.mutex = false := by simpa using hm
    rcases dequeueTimerFired_free d Delay hm with ⟨_, hI⟩ | ⟨_, _, hI⟩ |
      ⟨hne, x, hx, ⟨_, hI⟩ | ⟨_, hI⟩⟩ <;> rw [hI]
    · exact hg
    · exact gatesOk_congr hg rfl rfl rfl
    · exact hg
    · exact gatesOk_popAndReturn d x hg hx hne

theorem backed_invariant [Inhabited T] {grow : Int → Int} {shrunk : Int → Int → Int}
    {C : Int} {compare : Comparator T} {b : Backed T} (hC : 1 ≤ C)
    (hr : Backed.Reachable grow shrunk C compare b) :
    Good C compare b.heap ∧ b.slots = C + 1 := by
  induction hr with
  | init =>
    refine ⟨good_new C compare, ?_⟩
    simp only [Backed.New, sliceCap]
    rw [if_neg (by omega)]
  | @enqueue b b' t e _ h ih =>
    obtain ⟨hg, hs⟩ := ih
    have hcap : b.heap.capacity = C := by rw [hg.cap, if_neg (by omega)]
    unfold Backed.Enqueue at h
    rcases enqueue_cases b.heap t with ⟨hf, hE⟩ | ⟨hf, out, hE, _⟩
    · rw [hE] at h
      simp only [Except.ok.injEq, Prod.mk.injEq] at h
      rw [← h.2]
      exact ⟨hg, by simp [hf, hs]⟩
    · have hg' := good_enqueue hg hE
      rw [hE] at h
      simp only [Except.ok.injEq, Prod.mk.injEq] at h
      rw [← h.2]
      refine ⟨hg', ?_⟩
      have hb := hg.bound (by omega)
      rw [isFull_eq_false_iff] at hf
      have hne : ¬ ((b.heap.data.length : Int) - 1 = b.heap.capacity) :=
        fun h' => hf ⟨by omega, h'⟩
      simp only [hf, appendCap, hs]
      have hlt : (b.heap.data.length : Int) < C + 1 := by omega
      simp [isFull, hne, hlt]
  | @dequeue b b' r _ h ih =>
    obtain ⟨hg, hs⟩ := ih
    have hcap : b.heap.capacity = C := by rw [hg.cap, if_neg (by omega)]
    unfold Backed.Dequeue at h
    cases hD : b.heap.Dequeue with
    | error f => rw [hD] at h; cases h
    | ok v =>
      obtain ⟨r', p⟩ := v
      have hg' := good_dequeue hg hD
      rw [hD] at h
      simp only [Except.ok.injEq, Prod.mk.injEq] at h
      rw [← h.2]
      refine ⟨hg', ?_⟩
      have hnb : b.heap.IsBoundless = false := by simp [IsBoundless, hcap]; omega
      simp [hnb, hs]
  | @peek b b' r _ h ih =>
    obtain ⟨hg, hs⟩ := ih
    unfold Backed.Peek at h
    rcases peek_cases b.heap with ⟨_, hP⟩ | ⟨_, _, hP⟩ | ⟨_, x, _, hP⟩
    · rw [hP] at h
      simp only [Except.ok.injEq, Prod.mk.injEq] at h
      rw [← h.2]
      exact ⟨hg, hs⟩
    · rw [hP] at h; cases h
    · rw [hP] at h
      simp only [Except.ok.injEq, Prod.mk.injEq] at h
      rw [← h.2]
      exact ⟨hg, hs⟩

/-- Claim C15: for a heap created with capacity `C ≥ 1`, after every sequence
of `Enqueue`, `Dequeue` and `Peek` calls `0 ≤ Len() ≤ C` and `Cap() = C` hold,
the slice has at most `C + 1` elements, its backing array still has the
`C + 1` slots `NewPriorityQueue` allocated, and a further `append` does not
allocate. -/
theorem bounded_heap_never_resizes [Inhabited T] (grow : Int → Int)
    (shrunk : Int → Int → Int) (C : Int) (compare : Comparator T) (b : Backed T)
    (hC : 1 ≤ C) (hr : Backed.Reachable grow shrunk C compare b) :
    (0 ≤ b.heap.Len ∧ b.heap.Len ≤ C) ∧ b.heap.Cap = C ∧ b.heap.IsBoundless = false ∧
      (b.heap.data.length : Int) ≤ C + 1 ∧ b.slots = C + 1 ∧
      (b.heap.isFull = false → appendCap grow b.heap.data.length b.slots = b.slots) := by
  obtain ⟨hg, hs⟩ := backed_invariant hC hr
  have hcap : b.heap.capacity = C := by rw [hg.cap, if_neg (by omega)]
  have hb := hg.bound (by omega)
  have hl := lt_of_getElem?_some hg.head
  have hnb : b.heap.IsBoundless = false := by simp [IsBoundless, hcap]; omega
  refine ⟨⟨?_, ?_⟩, hcap, hnb, by omega, hs, ?_⟩
  · show 0 ≤ (b.heap.data.length : Int) - 1
    omega
  · show (b.heap.data.length : Int) - 1 ≤ C
    omega
  · intro hf
    rw [isFull_eq_false_iff] at hf
    have hne : ¬ ((b.heap.data.length : Int) - 1 = b.heap.capacity) :=
      fun h' => hf ⟨by omega, h'⟩
    simp only [appendCap, hs]
    rw [if_pos (by omega)]

theorem backed_reach_013 :
    Backed.Reachable doubleCap keepCap 2 intCompare ⟨⟨2, [0, 1, 3], intCompare⟩, 3⟩ :=
  have h1 : Backed.Reachable doubleCap keepCap 2 intCompare ⟨⟨2, [0, 3], intCompare⟩, 3⟩ :=
    Backed.Reachable.enqueue Backed.Reachable.init
      (show (Backed.New 2 intCompare).Enqueue doubleCap 3 = .ok (none, _) from rfl)
  Backed.Reachable.enqueue h1
    (show Backed.Enqueue doubleCap ⟨⟨2, [0, 3], intCompare⟩, 3⟩ 1 = .ok (none, _) from rfl)

theorem bounded_heap_never_resizes_witness :
    (1 : Int) ≤ 2 ∧
    Backed.Reachable doubleCap keepCap 2 intCompare ⟨⟨2, [0, 1, 3], intCompare⟩, 3⟩ ∧
    ((0 ≤ Len ⟨2, [0, 1, 3], intCompare⟩ ∧ Len ⟨2, [0, 1, 3], intCompare⟩ ≤ 2) ∧
      Cap ⟨2, [0, 1, 3], intCompare⟩ = 2 ∧
      IsBoundless ⟨2, [0, 1, 3], intCompare⟩ = false ∧
      (([0, 1, 3] : List Int).length : Int) ≤ 2 + 1 ∧ (3 : Int) = 2 + 1 ∧
      (isFull ⟨2, [0, 1, 3], intCompare⟩ = false →
        appendCap doubleCap ([0, 1, 3] : List Int).length 3 = 3)) :=
  ⟨by decide, backed_reach_013,
    bounded_heap_never_resizes doubleCap keepCap 2 intCompare
      ⟨⟨2, [0, 1, 3], intCompare⟩, 3⟩ (by decide) backed_reach_013⟩

theorem heap_invariant_preserved_witness :
    TotalPreorder intCompare ∧
    ((∀ c, HeapInv intCompare (NewPriorityQueue c intCompare).data) ∧
      (∀ p : PriorityQueue Int, p.compare = intCompare → HeapInv intCompare p.data →
        (∀ t e p', p.Enqueue t = .ok (e, p') → HeapInv intCompare p'.data) ∧
        (∀ r p', p.Dequeue = .ok (r, p') → HeapInv intCompare p'.data) ∧
        (∀ r p', p.Peek = .ok (r, p') → HeapInv intCompare p'.data)) ∧
      (∀ c p, Reachable c intCompare p → HeapInv intCompare p.data)) :=
  ⟨intCompare_totalPreorder, heap_invariant_preserved intCompare intCompare_totalPreorder⟩

theorem gatesOk_fullQueue : fullQueue.GatesOk :=
  ⟨by decide, by decide, by decide, by decide, by decide, by decide⟩

theorem gatesOk_readyQueueAfter : readyQueueAfter.GatesOk :=
  ⟨by decide, by decide, by decide, by decide, by decide, by decide⟩

theorem enqueue_full_waits_else_inserts_witness :
    (fullQueue.mutex = false ∧ fullQueue.GatesOk ∧
      (0 < fullQueue.q.Cap ∧ fullQueue.q.Len = fullQueue.q.Cap) ∧
      fullQueue.enqueueIter none jobB = (.waitSpace 0, fullQueue)) ∧
    (readyQueueAfter.mutex = false ∧ readyQueueAfter.GatesOk ∧
      ¬ (0 < readyQueueAfter.q.Cap ∧ readyQueueAfter.q.Len = readyQueueAfter.q.Cap) ∧
      ∃ q', readyQueueAfter.q.Enqueue jobC = .ok (none, q') ∧
        readyQueueAfter.enqueueIter none jobC = (.returned none,
          { readyQueueAfter with q := q', enqueueSignal := ⟨3⟩, chans := ⟨[1, 0], 4⟩ })) :=
  ⟨⟨rfl, gatesOk_fullQueue, by decide,
      ((enqueue_full_waits_else_inserts fullQueue jobB rfl gatesOk_fullQueue).1
        (by decide)).1⟩,
    rfl, gatesOk_readyQueueAfter, by decide,
    (by
      obtain ⟨q', hE, _, _, hI, _⟩ :=
        (enqueue_full_waits_else_inserts readyQueueAfter jobC rfl gatesOk_readyQueueAfter).2
          (by decide)
      exact ⟨q', hE, hI⟩)⟩

theorem lock_released_at_waits_and_returns_witness :
    readyQueue.mutex = false ∧
    (readyQueue.dequeueIter none delayAt60 none).1.atWaitOrReturn = true ∧
    (readyQueue.dequeueIter none delayAt60 none).2.1.mutex = false :=
  ⟨rfl, rfl,
    ((lock_released_at_waits_and_returns readyQueue none jobC delayAt60 none
      Wake.signal).2.2 rfl).2.2.1 rfl⟩

/-! ## The constructor at the top of the integer range; the lock after a panic -/

/-- A run of `DelayQueue.Dequeue` that finds the lock free on an empty heap of
capacity 2 or more panics inside `Peek` and keeps the lock. -/
theorem dequeueIter_panics_holding_lock [Inhabited T] (d : DelayQueue T)
    (Delay : T → Int) (timer : Option Int) (hm : d.mutex = false)
    (hcap : 2 ≤ d.q.capacity) (hlen : d.q.data.length < 2) :
    d.dequeueIter none Delay timer =
        (.crashed .indexOutOfRange, { d with mutex := true }, timer) ∧
      d.dequeueTimerFired Delay = (.crashed .indexOutOfRange, { d with mutex := true }) := by
  have hne : d.q.isEmpty = false := by simp [isEmpty]; omega
  constructor
  · rcases dequeueIter_free d Delay timer hm with ⟨he, _⟩ | ⟨_, _, hI⟩ | ⟨_, x, hx, _⟩
    · rw [hne] at he; cases he
    · exact hI
    · have := lt_of_getElem?_some hx
      omega
  · rcases dequeueTimerFired_free d Delay hm with ⟨he, _⟩ | ⟨_, _, hI⟩ | ⟨_, x, hx, _⟩
    · rw [hne] at he; cases he
    · exact hI
    · have := lt_of_getElem?_some hx
      omega

/-- Claim C16, evaluated on the empty delay queue of capacity 2 with the lock
free: a run of `Dequeue`, from the start of the loop or from the timer branch,
takes the lock and panics inside `Peek` without an unlock; the lock stays
held, and a later `Enqueue` or `Dequeue` is suspended in `Lock`. -/
theorem lock_leaked_on_peek_panic :
    (NewDelayQueue 2 byDeadline).mutex = false ∧ (NewDelayQueue 2 byDeadline).q.Len = 0 ∧
    (∃ d', (NewDelayQueue 2 byDeadline).dequeueIter none delayAt60 none =
        (.crashed .indexOutOfRange, d', none) ∧
      d'.mutex = true ∧ d'.enqueueIter none jobA = (.blockedOnLock, d') ∧
      d'.dequeueIter none delayAt60 none = (.blockedOnLock, d', none)) ∧
    (∃ d', (NewDelayQueue 2 byDeadline).dequeueTimerFired delayAt60 =
        (.crashed .indexOutOfRange, d') ∧
      d'.mutex = true ∧ d'.enqueueIter none jobA = (.blockedOnLock, d')) :=
  ⟨rfl, rfl, ⟨_, rfl, rfl, rfl, rfl⟩, ⟨_, rfl, rfl, rfl⟩⟩

end GeneralizationTool
